import Mathlib

/-!
# go-swagger-structs: the schema-to-struct mapper

A shallow embedding of `main.go` (the `modelsMapper` methods) and of
`swagger/types.go` (the decoded schema document), together with the parts of
the Go standard library the mapper calls (`strings`, `unicode/utf8`,
`unicode`, `sort`, `fmt.Sprintf` with `%s` verbs only) and the renderer
calls (`text/template`, for the node types of the one template).

Conventions of the embedding

* A Go `string` is a sequence of bytes: `GoString := List Nat`, every element
  standing for one byte.  String literals of the source are ASCII and are
  written with `ascii`.
* A Go pointer `*T` is `Option T`; `none` is the nil pointer.
* A Go `map[string]V` is an association list; the order of the list is the
  (unspecified) iteration order of the map, and the keys of a map are
  pairwise distinct (`GoMap.WF`).
* A function that can dereference a nil pointer returns `Option`; `none` is
  the run-time panic.
-/

namespace GoSwaggerStructs

/-! ## Strings -/

/-- A Go string: a sequence of bytes. -/
abbrev GoString := List Nat

/-- The bytes of an ASCII literal of the source. -/
def ascii (s : String) : GoString := s.toList.map Char.toNat

/-- Go `strings.HasPrefix(s, prefix)`:
`len(s) >= len(prefix) && s[:len(prefix)] == prefix`. -/
def hasPrefix (s pre : GoString) : Bool :=
  decide (pre.length ≤ s.length) && decide (s.take pre.length = pre)

/-- Go `strings.HasSuffix(s, suffix)`:
`len(s) >= len(suffix) && s[len(s)-len(suffix):] == suffix`. -/
def hasSuffix (s suf : GoString) : Bool :=
  decide (suf.length ≤ s.length) && decide (s.drop (s.length - suf.length) = suf)

/-- Go `strings.Index(s, substr)`: the byte offset of the first occurrence of
`substr` in `s`; `none` stands for `-1`. -/
def stringsIndex (s substr : GoString) : Option Nat :=
  match s with
  | [] => if substr = [] then some 0 else none
  | c :: cs =>
    if hasPrefix (c :: cs) substr then some 0
    else (stringsIndex cs substr).map (fun i => i + 1)

/-! ## UTF-8 (`unicode/utf8`, `unicode`) -/

/-- The constant `utf8.RuneError`, U+FFFD. -/
def RuneError : Nat := 0xFFFD

/-- Go `utf8.DecodeRuneInString(s)`: the first rune of `s` and its width in
bytes.  The branches follow the library: the `first` table is the case split
on the lead byte, the accept range of the second byte depends on the lead byte
(`0xE0`, `0xED`, `0xF0`, `0xF4` narrow it).  The masks and shifts of the
library are written arithmetically (`b & 0x3F` is `b % 64`, `x << 6 | y` is
`x * 64 + y` for `y < 64`). -/
def DecodeRuneInString (s : GoString) : Nat × Nat :=
  match s with
  | [] => (RuneError, 0)
  | s0 :: t =>
    if s0 < 0x80 then (s0, 1)
    else if s0 < 0xC2 then (RuneError, 1)
    else if s0 < 0xE0 then
      -- two bytes, accept range 0x80..0xBF
      match t with
      | s1 :: _ =>
        if s1 < 0x80 ∨ 0xBF < s1 then (RuneError, 1)
        else ((s0 % 32) * 64 + s1 % 64, 2)
      | _ => (RuneError, 1)
    else if s0 < 0xF0 then
      -- three bytes
      let lo := if s0 = 0xE0 then 0xA0 else 0x80
      let hi := if s0 = 0xED then 0x9F else 0xBF
      match t with
      | s1 :: s2 :: _ =>
        if s1 < lo ∨ hi < s1 then (RuneError, 1)
        else if s2 < 0x80 ∨ 0xBF < s2 then (RuneError, 1)
        else ((s0 % 16) * 4096 + (s1 % 64) * 64 + s2 % 64, 3)
      | _ => (RuneError, 1)
    else if s0 < 0xF5 then
      -- four bytes
      let lo := if s0 = 0xF0 then 0x90 else 0x80
      let hi := if s0 = 0xF4 then 0x8F else 0xBF
      match t with
      | s1 :: s2 :: s3 :: _ =>
        if s1 < lo ∨ hi < s1 then (RuneError, 1)
        else if s2 < 0x80 ∨ 0xBF < s2 then (RuneError, 1)
        else if s3 < 0x80 ∨ 0xBF < s3 then (RuneError, 1)
        else ((s0 % 8) * 262144 + (s1 % 64) * 4096 + (s2 % 64) * 64 + s3 % 64, 4)
      | _ => (RuneError, 1)
    else (RuneError, 1)

/-- Go conversion `string(r)` of a rune to a string: the UTF-8 encoding of
`r`, and the encoding of U+FFFD when `r` is a surrogate or above U+10FFFF. -/
def runeToString (r : Nat) : GoString :=
  if r ≤ 0x7F then [r]
  else if r ≤ 0x7FF then [0xC0 + r / 64, 0x80 + r % 64]
  else if 0x10FFFF < r ∨ (0xD800 ≤ r ∧ r ≤ 0xDFFF) then [0xEF, 0xBF, 0xBD]
  else if r ≤ 0xFFFF then [0xE0 + r / 4096, 0x80 + r / 64 % 64, 0x80 + r % 64]
  else [0xF0 + r / 262144, 0x80 + r / 4096 % 64, 0x80 + r / 64 % 64, 0x80 + r % 64]

/-- Go `unicode.ToUpper(r)`.  The ASCII branch is the library's own fast path;
for the other runes the library consults its `CaseRanges` table, which is the
parameter `caseTable` here. -/
def unicodeToUpper (caseTable : Nat → Nat) (r : Nat) : Nat :=
  if r ≤ 0x7F then
    if 0x61 ≤ r ∧ r ≤ 0x7A then r - 0x20 else r
  else caseTable r

/-- An excerpt of the upper-case table, for concrete evaluations: the
lower-case letters of the Latin-1 Supplement, U+00E0 .. U+00FE without the
division sign U+00F7, map 32 code points down; everything else is left as
it is. -/
def latin1CaseTable (r : Nat) : Nat :=
  if 0xE0 ≤ r ∧ r ≤ 0xFE ∧ r ≠ 0xF7 then r - 0x20 else r

/-- Go `utf8.RuneCountInString(s)`, by repeated decoding; `fuel` bounds the
number of runes and is `len(s)` at the call site. -/
def runeCount : Nat → GoString → Nat
  | 0, _ => 0
  | fuel + 1, s =>
    if s = [] then 0 else 1 + runeCount fuel (s.drop (DecodeRuneInString s).2)

/-! ## `strings.Replace` -/

/-- The loop of Go `strings.Count(s, substr)` for a non-empty `substr`: the
number of non-overlapping occurrences. -/
def countLoop (substr : GoString) : Nat → GoString → Nat
  | 0, _ => 0
  | fuel + 1, s =>
    match stringsIndex s substr with
    | none => 0
    | some i => 1 + countLoop substr fuel (s.drop (i + substr.length))

/-- Go `strings.Count(s, substr)`. -/
def stringsCount (s substr : GoString) : Nat :=
  if substr = [] then runeCount s.length s + 1
  else countLoop substr (s.length + 1) s

/-- The replacement loop of Go `strings.Replace`: `n` iterations over the
rest `s[start:]` of the string; `first` tells the first iteration (`i == 0`)
from the later ones. -/
def replaceLoop (old new : GoString) : Nat → Bool → GoString → GoString
  | 0, _, s => s
  | n + 1, first, s =>
    let j : Nat :=
      if old = [] then (if first then 0 else (DecodeRuneInString s).2)
      else (stringsIndex s old).getD 0
    s.take j ++ new ++ replaceLoop old new n false (s.drop (j + old.length))

/-- Go `strings.Replace(s, old, new, n)`: the first `n` non-overlapping
occurrences of `old` replaced by `new`, all of them when `n < 0`. -/
def stringsReplace (s old new : GoString) (n : Int) : GoString :=
  if old = new ∨ n = 0 then s
  else
    let m := stringsCount s old
    if m = 0 then s
    else
      let k : Nat := if n < 0 ∨ (m : Int) < n then m else n.toNat
      replaceLoop old new k true s

/-! ## `sort.Strings` -/

/-- Go's `<` on strings: byte-wise lexicographic order, a proper prefix being
smaller. -/
def strLess : GoString → GoString → Bool
  | [], [] => false
  | [], _ :: _ => true
  | _ :: _, [] => false
  | a :: as, b :: bs =>
    if a < b then true else if b < a then false else strLess as bs

/-- The order `sort.Strings` sorts by: `a` may stand before `b` when `b` is
not less than `a`. -/
def strLE (a b : GoString) : Prop := strLess b a = false

instance strLE.decidable : DecidableRel strLE := fun a b =>
  inferInstanceAs (Decidable (strLess b a = false))

/-- Go `sort.Strings(x)`: `x` in increasing order.  The library's algorithm is
not stable, which no caller can observe on strings; the model is insertion
sort. -/
def sortStrings (x : List GoString) : List GoString :=
  List.insertionSort strLE x

/-! ## The schema document (`swagger/types.go`) -/

/-- The type `swagger.Property`.  The field `Items *Property` is a pointer,
nil when the document has no `items`. -/
inductive Property where
  | mk (Ref : GoString) (Format : GoString) (Typ : GoString) (Items : Option Property)

/-- The field `Ref` (JSON `$ref`). -/
def Property.Ref : Property → GoString
  | .mk r _ _ _ => r

/-- The field `Format`. -/
def Property.Format : Property → GoString
  | .mk _ f _ _ => f

/-- The field `Type`. -/
def Property.Typ : Property → GoString
  | .mk _ _ t _ => t

/-- The field `Items`. -/
def Property.Items : Property → Option Property
  | .mk _ _ _ i => i

/-- A Go `map[string]V`: the entries in iteration order. -/
abbrev GoMap (V : Type) := List (GoString × V)

/-- The keys of a map, in iteration order (`for key := range m`). -/
def GoMap.keys {V : Type} (m : GoMap V) : List GoString := m.map Prod.fst

/-- The index expression `m[key]` on a map of pointers: the zero value, nil, for a
missing key. -/
def GoMap.get {V : Type} (m : GoMap (Option V)) (key : GoString) : Option V :=
  match m with
  | [] => none
  | (k, v) :: rest => if k = key then v else GoMap.get rest key

/-- The comma-ok form `_, ok := m[key]`. -/
def GoMap.has {V : Type} (m : GoMap V) (key : GoString) : Bool :=
  match m with
  | [] => false
  | (k, _) :: rest => if k = key then true else GoMap.has rest key

/-- The keys of a map are pairwise distinct. -/
def GoMap.WF {V : Type} (m : GoMap V) : Prop := m.keys.Nodup

/-- The type `swagger.Properties`, `map[string]*Property`. -/
abbrev Properties := GoMap (Option Property)

/-- The type `swagger.Definition`. -/
structure Definition where
  Required : List GoString
  Typ : GoString
  Properties : Properties

/-- The type `swagger.Definitions`, `map[string]*Definition`. -/
abbrev Definitions := GoMap (Option Definition)

/-! The constants of `swagger/types.go`. -/

def FormatDouble : GoString := ascii "double"
def FormatInt32 : GoString := ascii "int32"
def FormatInt64 : GoString := ascii "int64"
def FormatDateTime : GoString := ascii "date-time"
def TypeString : GoString := ascii "string"
def TypeInteger : GoString := ascii "integer"
def TypeNumber : GoString := ascii "number"
def TypeArray : GoString := ascii "array"
def TypeBoolean : GoString := ascii "boolean"

/-! ## The mapper (`main.go`) -/

/-- The type `goModelField`. -/
structure goModelField where
  Name : GoString
  TypeName : GoString
  Tags : GoString
  swaggerFieldName : GoString
deriving DecidableEq

/-- The type `goModel`. -/
structure goModel where
  Name : GoString
  Fields : List goModelField
deriving DecidableEq

/-- The method `modelsMapper.toGoPublicFieldName`. -/
def toGoPublicFieldName (caseTable : Nat → Nat) (name : GoString) : GoString :=
  if name = ascii "id" then ascii "ID"
  else
    let name :=
      if hasSuffix name (ascii "Id") then name.take (name.length - 2) ++ ascii "ID"
      else if hasSuffix name (ascii "Url") then name.take (name.length - 3) ++ ascii "URL"
      else name
    let (r, n) := DecodeRuneInString name
    runeToString (unicodeToUpper caseTable r) ++ name.drop n

/-- The method `modelsMapper.findDefName`. -/
def findDefName (defs : Definitions) (ref : GoString) : GoString :=
  let refName := stringsReplace ref (ascii "#/definitions/") (ascii "") 1
  if GoMap.has defs refName then refName else ascii "unknown"

/-- The method `modelsMapper.toGoModelName`. -/
def toGoModelName (name : GoString) : GoString :=
  stringsReplace name (ascii ".") (ascii "") (-1)

/-- The body of `modelsMapper.toFieldType` behind a non-nil pointer `prop`.
An `integer` with a format other than `int32`, `int64` leaves the switch and
reaches the reference resolution below it.  In the `array` case the method
calls itself on the pointer `prop.Items`; the match on `items` is that call,
which panics on a nil pointer (see `toFieldType`). -/
def toFieldTypeAt (defs : Definitions) : Property → Bool → Option GoString
  | .mk ref format typ items, required =>
    let pre : GoString := if required then ascii "*" else ascii ""
    let byRef : Option GoString :=
      some (ascii "*" ++ toGoModelName (findDefName defs ref))
    if typ = TypeString then
      if format = FormatDateTime then some (pre ++ ascii "time.Time")
      else some (pre ++ ascii "string")
    else if typ = TypeBoolean then some (pre ++ ascii "bool")
    else if typ = TypeNumber then some (pre ++ ascii "float64")
    else if typ = TypeInteger then
      if format = FormatInt32 then some (pre ++ ascii "int32")
      else if format = FormatInt64 then some (pre ++ ascii "int64")
      else byRef
    else if typ = TypeArray then
      match items with
      | none => none
      | some item => (toFieldTypeAt defs item false).map (fun t => ascii "[]" ++ t)
    else byRef
termination_by structural prop => prop

/-- The method `modelsMapper.toFieldType`.  The argument is the pointer `prop`;
reading `prop.Type` through a nil pointer panics (`none`). -/
def toFieldType (defs : Definitions) : Option Property → Bool → Option GoString
  | none, _ => none
  | some prop, required => toFieldTypeAt defs prop required

/-- The method `modelsMapper.isRequiredField`. -/
def isRequiredField (requiredFields : List GoString) (fieldName : GoString) : Bool :=
  match requiredFields with
  | [] => false
  | f :: rest => if f = fieldName then true else isRequiredField rest fieldName

/-- The body of the loop of `toGoModelFields` for one key. -/
def toGoModelField (caseTable : Nat → Nat) (defs : Definitions)
    (requiredFields : List GoString) (props : Properties) (key : GoString) :
    Option goModelField :=
  (toFieldType defs (GoMap.get props key) (isRequiredField requiredFields key)).map
    fun typ =>
      { Name := toGoPublicFieldName caseTable key
        TypeName := typ
        Tags := ascii "`json:\"" ++ key ++ ascii ",omitempty\"`"
        swaggerFieldName := key }

/-- The loop `for _, key := range keys \x7b ...; out = append(out, x) \x7d` of
`toGoModelFields` and of `goModels`: one element per key, in the order of the
keys; a panic in the body ends it. -/
def appendEach {α : Type} (body : GoString → Option α) : List GoString → Option (List α)
  | [] => some []
  | key :: rest =>
    match body key with
    | none => none
    | some x => (appendEach body rest).map (fun out => x :: out)

/-- The method `modelsMapper.toGoModelFields`. -/
def toGoModelFields (caseTable : Nat → Nat) (defs : Definitions)
    (requiredFields : List GoString) (props : Properties) : Option (List goModelField) :=
  appendEach (toGoModelField caseTable defs requiredFields props)
    (sortStrings (GoMap.keys props))

/-- The body of the loop of `goModels` for one key: `def := m.defs[key]` is a
pointer, and `def.Required` panics when it is nil. -/
def toGoModel (caseTable : Nat → Nat) (defs : Definitions) (key : GoString) :
    Option goModel :=
  match GoMap.get defs key with
  | none => none
  | some d =>
    (toGoModelFields caseTable defs d.Required d.Properties).map
      fun fields => { Name := toGoModelName key, Fields := fields }

/-- The method `modelsMapper.goModels`. -/
def goModels (caseTable : Nat → Nat) (defs : Definitions) : Option (List goModel) :=
  appendEach (toGoModel caseTable defs) (sortStrings (GoMap.keys defs))

/-- The assignment `imports[key] = struct\x7b\x7d\x7b\x7d` on the set `imports` of
`getImports`, a `map[string]struct\x7b\x7d`: the key is added unless present. -/
def setInsert (imports : List GoString) (key : GoString) : List GoString :=
  if key ∈ imports then imports else imports ++ [key]

/-- The inner loop of `getImports`, `for _, p := range v.Properties`; reading
`p.Type` through a nil `p` panics. -/
def importsOfProps : Properties → List GoString → Option (List GoString)
  | [], imports => some imports
  | (_, none) :: _, _ => none
  | (_, some p) :: rest, imports =>
    if p.Typ = TypeString ∧ p.Format = FormatDateTime then
      importsOfProps rest (setInsert imports (ascii "time"))
    else importsOfProps rest imports

/-- The outer loop of `getImports`, `for _, v := range m.defs`; reading
`v.Properties` through a nil `v` panics. -/
def importsOfDefs : Definitions → List GoString → Option (List GoString)
  | [], imports => some imports
  | (_, none) :: _, _ => none
  | (_, some v) :: rest, imports =>
    match importsOfProps v.Properties imports with
    | none => none
    | some imports => importsOfDefs rest imports

/-- The method `modelsMapper.getImports`: the keys of the set built by the two
loops. -/
def getImports (defs : Definitions) : Option (List GoString) :=
  importsOfDefs defs []

/-! ## The documents of the scenarios -/

/-- The document
`\x7b"definitions":\x7b"Pet":\x7b"required":["id"],"properties":\x7b"id":\x7b"type":"integer","format":"int64"\x7d,"name":\x7b"type":"string"\x7d\x7d\x7d\x7d\x7d`. -/
def petDoc : Definitions :=
  [(ascii "Pet",
    some { Required := [ascii "id"], Typ := [],
           Properties :=
            [(ascii "name", some (.mk [] [] TypeString none)),
             (ascii "id", some (.mk [] FormatInt64 TypeInteger none))] })]

/-- The properties of `Pet` in `petDoc`. -/
def petProps : Properties :=
  [(ascii "name", some (.mk [] [] TypeString none)),
   (ascii "id", some (.mk [] FormatInt64 TypeInteger none))]

/-- The document `\x7b"definitions":\x7b"A":\x7b"properties":\x7b"xs":\x7b"type":"array"\x7d\x7d\x7d\x7d\x7d`:
an array without `items`. -/
def arrayNoItemsDoc : Definitions :=
  [(ascii "A",
    some { Required := [], Typ := [],
           Properties := [(ascii "xs", some (.mk [] [] TypeArray none))] })]

/-- The document `\x7b"definitions":\x7b"A":\x7b"properties":\x7b"x":null\x7d\x7d\x7d\x7d`: a
property whose value is null. -/
def nullPropertyDoc : Definitions :=
  [(ascii "A", some { Required := [], Typ := [], Properties := [(ascii "x", none)] })]

/-- The document `\x7b"definitions":\x7b"A":null\x7d\x7d`: a definition whose value is
null. -/
def nullDefinitionDoc : Definitions := [(ascii "A", none)]

/-! ## Spec-side predicates -/

/-- A property chain that `toFieldType` can walk: behind every `array` there
is an `items` pointer that is not nil. -/
def Property.resolvable : Property → Bool
  | .mk _ _ typ items =>
    if typ = TypeArray then
      match items with
      | none => false
      | some item => item.resolvable
    else true
termination_by structural prop => prop

/-- A property pointer that is not nil and walks (`Property.resolvable`). -/
def ptrResolvable : Option Property → Bool
  | none => false
  | some prop => prop.resolvable

/-- Every property pointer of the map is resolvable. -/
def propsResolvable (props : Properties) : Bool :=
  props.all (fun kv => ptrResolvable kv.2)

/-- A document without nil pointers: no definition is null, no property is
null, every array has its `items`. -/
def docResolvable (defs : Definitions) : Bool :=
  defs.all fun kv =>
    match kv.2 with
    | none => false
    | some d => propsResolvable d.Properties

/-- The maps of a document have pairwise distinct keys, as the maps of the
decoder have. -/
def docWF (defs : Definitions) : Prop :=
  GoMap.WF defs ∧ ∀ k d, (k, some d) ∈ defs → GoMap.WF d.Properties

/-- The default rule of `toGoPublicFieldName` alone (its last two lines): the
first decoded rune in upper case, the bytes behind it unchanged. -/
def upperFirst (caseTable : Nat → Nat) (name : GoString) : GoString :=
  runeToString (unicodeToUpper caseTable (DecodeRuneInString name).1)
    ++ name.drop (DecodeRuneInString name).2

/-- A Unicode scalar value: a code point up to U+10FFFF that is no
surrogate.  These are the runes UTF-8 encodes. -/
def validRune (c : Nat) : Prop := c ≤ 0x10FFFF ∧ ¬ (0xD800 ≤ c ∧ c ≤ 0xDFFF)

instance validRune.decidable (c : Nat) : Decidable (validRune c) :=
  inferInstanceAs (Decidable (c ≤ 0x10FFFF ∧ ¬ (0xD800 ≤ c ∧ c ≤ 0xDFFF)))

instance GoMap.WF.decidable {V : Type} (m : GoMap V) : Decidable (GoMap.WF m) :=
  inferInstanceAs (Decidable (m.keys.Nodup))

/-- No property pointer of the map is nil (an array may lack its `items`). -/
def propsNonNull (props : Properties) : Bool :=
  props.all (fun kv => kv.2.isSome)

/-- A document without null definition and without null property. -/
def docNonNull (defs : Definitions) : Bool :=
  defs.all fun kv =>
    match kv.2 with
    | none => false
    | some d => propsNonNull d.Properties

/-- Some property of the map itself (not an element behind an array) is a
string of format date-time. -/
def propsHaveDateTime (props : Properties) : Bool :=
  props.any fun kv =>
    match kv.2 with
    | none => false
    | some p => decide (p.Typ = TypeString ∧ p.Format = FormatDateTime)

/-- Some definition has a property that is a string of format date-time. -/
def docHasDateTime (defs : Definitions) : Bool :=
  defs.any fun kv =>
    match kv.2 with
    | none => false
    | some d => propsHaveDateTime d.Properties

/-- The document
`\x7b"definitions":\x7b"A":\x7b"properties":\x7b"at":\x7b"type":"string","format":"date-time"\x7d\x7d\x7d,"B":\x7b"properties":\x7b"on":\x7b"type":"string","format":"date-time"\x7d\x7d\x7d\x7d\x7d`:
two definitions with a date-time property each. -/
def twoDateTimeDoc : Definitions :=
  [(ascii "A",
    some { Required := [], Typ := [],
           Properties := [(ascii "at", some (.mk [] FormatDateTime TypeString none))] }),
   (ascii "B",
    some { Required := [], Typ := [],
           Properties := [(ascii "on", some (.mk [] FormatDateTime TypeString none))] })]

/-- The document
`\x7b"definitions":\x7b"A":\x7b"properties":\x7b"ts":\x7b"type":"array","items":\x7b"type":"string","format":"date-time"\x7d\x7d\x7d\x7d\x7d\x7d`:
an array of date-time strings. -/
def arrayDateTimeDoc : Definitions :=
  [(ascii "A",
    some { Required := [], Typ := [],
           Properties :=
            [(ascii "ts",
              some (.mk [] [] TypeArray (some (.mk [] FormatDateTime TypeString none))))] })]

/-- The document `\x7b"definitions":\x7b"a.b":\x7b\x7d,"ab":\x7b\x7d\x7d\x7d`: two definition names
that differ by a `.` only. -/
def dottedNamesDoc : Definitions :=
  [(ascii "ab", some { Required := [], Typ := [], Properties := [] }),
   (ascii "a.b", some { Required := [], Typ := [], Properties := [] })]

/-- The properties `\x7b"id":\x7b"type":"string"\x7d,"Id":\x7b"type":"string"\x7d\x7d`. -/
def idProps : Properties :=
  [(ascii "id", some (.mk [] [] TypeString none)),
   (ascii "Id", some (.mk [] [] TypeString none))]

/-- Two definition pointers that are the same definition up to the order in
which its properties map is enumerated. -/
def samePtrDefinition : Option Definition → Option Definition → Prop
  | none, none => True
  | some d, some e =>
    d.Required = e.Required ∧ d.Typ = e.Typ ∧ List.Perm d.Properties e.Properties
  | _, _ => False

/-- Two enumerations of one document: the entries of the definitions map in
another order, the properties map of every definition in another order. -/
def sameDocument (defs defs' : Definitions) : Prop :=
  ∃ mid : Definitions,
    List.Forall₂ (fun a b => a.1 = b.1 ∧ samePtrDefinition a.2 b.2) defs mid
      ∧ List.Perm mid defs'

/-- The Pet document, enumerated in the other order of its properties. -/
def petDocSwapped : Definitions :=
  [(ascii "Pet",
    some { Required := [ascii "id"], Typ := [],
           Properties :=
            [(ascii "id", some (.mk [] FormatInt64 TypeInteger none)),
             (ascii "name", some (.mk [] [] TypeString none))] })]

/-! ## The renderer (`execTemplate`) -/

/-- The type `tmplModel`. -/
structure tmplModel where
  Imports : List GoString
  Models : List goModel

/-- The values a template of `text/template` is executed on, as far as
`execTemplate` uses them: strings, slices, and structs with their exported
fields by name (a pointer to a struct is followed silently). -/
inductive TplValue where
  | str (s : GoString)
  | list (xs : List TplValue)
  | struct (fields : List (String × TplValue))

/-- A parsed template, as a sequence of nodes ending in `done`:
`text s trim` is literal text of the source, to be stripped of its trailing
white space when the action behind it opens with the trim marker (`trim`);
`field name` is the action that prints the field `.name` of dot, and dot
itself for the empty name; `range name body` runs `body` with dot set to each
element of the slice `.name`, in order. -/
inductive Tpl where
  | done
  | text (s : GoString) (trim : Bool) (rest : Tpl)
  | field (name : String) (rest : Tpl)
  | range (name : String) (body : Tpl) (rest : Tpl)

/-- White space for the trim markers of `text/template`: space, tab, carriage
return, newline. -/
def isTplSpace (b : Nat) : Bool := b = 32 || b = 9 || b = 13 || b = 10

/-- The text before an action that opens with the trim marker: without its trailing
white space. -/
def trimRightSpace (s : GoString) : GoString := (s.reverse.dropWhile isTplSpace).reverse

/-- The evaluation of `.name` on dot; `none` is the error of `Execute`. -/
def tplField (name : String) (dot : TplValue) : Option TplValue :=
  if name = "" then some dot
  else
    match dot with
    | .struct fields => fields.lookup name
    | _ => none

/-- The output of a `range`: the outputs of the body for the elements, one
behind the other. -/
def tplConcat (body : TplValue → Option GoString) : List TplValue → Option GoString
  | [] => some []
  | x :: xs =>
    match body x with
    | none => none
    | some s => (tplConcat body xs).map (fun t => s ++ t)

/-- The method `Execute` of `text/template` on the node types above: the text
written; `none` is an error. -/
def tplExec : Tpl → TplValue → Option GoString
  | .done, _ => some []
  | .text s trim rest, dot =>
    (tplExec rest dot).map (fun t => (if trim then trimRightSpace s else s) ++ t)
  | .field name rest, dot =>
    match tplField name dot with
    | some (.str s) => (tplExec rest dot).map (fun t => s ++ t)
    | _ => none
  | .range name body rest, dot =>
    match tplField name dot with
    | some (.list xs) =>
      match tplConcat (fun x => tplExec body x) xs with
      | none => none
      | some s => (tplExec rest dot).map (fun t => s ++ t)
    | _ => none

/-- The body of `\x7b\x7brange .Imports\x7d\x7d` in `msgTemplate`. -/
def importTemplate : Tpl :=
  .text (ascii "\nimport \"") false <|
  .field "" <|
  .text (ascii "\"\n") true <|
  .done

/-- The body of `\x7b\x7b- range .Fields\x7d\x7d` in `msgTemplate`. -/
def fieldTemplate : Tpl :=
  .text (ascii "\n\t") false <|
  .field "Name" <|
  .text (ascii " ") false <|
  .field "TypeName" <|
  .text (ascii " ") false <|
  .field "Tags" <|
  .text (ascii "\n") true <|
  .done

/-- The body of `\x7b\x7brange .Models\x7d\x7d` in `msgTemplate`. -/
def modelTemplate : Tpl :=
  .text (ascii "\ntype ") false <|
  .field "Name" <|
  .text (ascii " struct \x7b\n") true <|
  .range "Fields" fieldTemplate <|
  .text (ascii "\n\x7d\n") false <|
  .done

/-- The constant `msgTemplate` of `execTemplate`, parsed. -/
def msgTemplate : Tpl :=
  .text (ascii "// Code generated by go-swagger-structs. DO NOT EDIT.\npackage models\n\n")
    false <|
  .range "Imports" importTemplate <|
  .text (ascii "\n\n") false <|
  .range "Models" modelTemplate <|
  .text (ascii "\n") false <|
  .done

/-- A `goModelField` as the template sees it: its exported fields. -/
def goModelField.toTpl (f : goModelField) : TplValue :=
  .struct [("Name", .str f.Name), ("TypeName", .str f.TypeName), ("Tags", .str f.Tags)]

/-- A `goModel` as the template sees it. -/
def goModel.toTpl (m : goModel) : TplValue :=
  .struct [("Name", .str m.Name), ("Fields", .list (m.Fields.map goModelField.toTpl))]

/-- A `tmplModel` as the template sees it. -/
def tmplModel.toTpl (model : tmplModel) : TplValue :=
  .struct [("Imports", .list (model.Imports.map TplValue.str)),
           ("Models", .list (model.Models.map goModel.toTpl))]

/-- The function `execTemplate`: the text written to `writer`; `none` is the
error of `Execute`. -/
def execTemplate (model : tmplModel) : Option GoString :=
  tplExec msgTemplate model.toTpl

/-- The document `\x7b"definitions":\x7b"int.32":\x7b\x7d\x7d\x7d`: a definition whose name
without its `.` is `int32`. -/
def int32NameDoc : Definitions :=
  [(ascii "int.32", some { Required := [], Typ := [], Properties := [] })]

/-! ## Lemmas: strings -/

theorem hasPrefix_append (p s : GoString) : hasPrefix (p ++ s) p = true := by
  simp [hasPrefix]

theorem stringsIndex_at_head (p s : GoString) : stringsIndex (p ++ s) p = some 0 := by
  cases h : p ++ s with
  | nil =>
    have hp : p = [] := (List.append_eq_nil.mp h).1
    simp [stringsIndex, hp]
  | cons c cs =>
    have := hasPrefix_append p s
    rw [h] at this
    simp [stringsIndex, this]

theorem stringsIndex_single_cons (c a : Nat) (t : GoString) :
    stringsIndex (a :: t) [c] =
      if a = c then some 0 else (stringsIndex t [c]).map (fun i => i + 1) := by
  simp [stringsIndex, hasPrefix]

theorem stringsIndex_single_none (c : Nat) (s : GoString) (h : c ∉ s) :
    stringsIndex s [c] = none := by
  induction s with
  | nil => simp [stringsIndex]
  | cons a t ih =>
    have ha : ¬ a = c := fun e => h (by simp [e])
    have ht : c ∉ t := fun e => h (by simp [e])
    simp [stringsIndex_single_cons, ha, ih ht]

theorem stringsIndex_single_of_mem (c : Nat) (s : GoString) (h : c ∈ s) :
    stringsIndex s [c] ≠ none := by
  induction s with
  | nil => simp at h
  | cons a t ih =>
    rw [stringsIndex_single_cons]
    by_cases hac : a = c
    · simp [hac]
    · have ht : c ∈ t := by
        rcases List.mem_cons.mp h with e | e
        · exact absurd e.symm hac
        · exact e
      cases hu : stringsIndex t [c] with
      | none => exact absurd hu (ih ht)
      | some i => simp [hac]

theorem countLoop_single (c : Nat) :
    ∀ (fuel : Nat) (s : GoString), s.length < fuel →
      countLoop [c] fuel s = (s.filter (fun b => b = c)).length := by
  intro fuel
  induction fuel with
  | zero => intro s h; omega
  | succ fuel ih =>
    intro s
    induction s with
    | nil => intro _; simp [countLoop, stringsIndex]
    | cons a t iht =>
      intro h
      by_cases hac : a = c
      · subst hac
        have h1 : t.length < fuel := by simpa using h
        simp [countLoop, stringsIndex_single_cons, ih t h1]
        omega
      · have h2 : (a :: t).length < fuel + 1 → t.length < fuel + 1 := by
          simp; omega
        have iht2 := iht (h2 h)
        simp only [countLoop, stringsIndex_single_cons, if_neg hac] at iht2 ⊢
        cases hidx : stringsIndex t [c] with
        | none =>
          rw [hidx] at iht2
          simpa [hac] using iht2
        | some i =>
          rw [hidx] at iht2
          simpa [hac] using iht2

theorem replaceLoop_single (c : Nat) :
    ∀ (k : Nat) (b : Bool) (s : GoString), (s.filter (fun x => x = c)).length = k →
      replaceLoop [c] [] k b s = s.filter (fun x => x ≠ c) := by
  intro k
  induction k with
  | zero =>
    intro b s h
    have hnil : s.filter (fun x => decide (x = c)) = [] := List.length_eq_zero.mp h
    have : ∀ x ∈ s, ¬ x = c := by
      intro x hx
      have := (List.filter_eq_nil_iff.mp hnil) x hx
      simpa using this
    simp only [replaceLoop]
    symm
    rw [List.filter_eq_self]
    intro x hx
    simpa using this x hx
  | succ k ih =>
    intro b s
    induction s with
    | nil => intro h; simp at h
    | cons a t iht =>
      intro h
      by_cases hac : a = c
      · subst hac
        have hk : (t.filter (fun x => decide (x = a))).length = k := by simpa using h
        simp [replaceLoop, stringsIndex_single_cons, ih false t hk]
      · have hk : (t.filter (fun x => decide (x = c))).length = k + 1 := by
          simpa [hac] using h
        have iht2 := iht hk
        simp only [replaceLoop] at iht2 ⊢
        simp only [stringsIndex_single_cons, if_neg hac]
        cases hidx : stringsIndex t [c] with
        | none =>
          exfalso
          have hmem : c ∈ t := by
            by_contra hc
            have : t.filter (fun x => decide (x = c)) = [] := by
              rw [List.filter_eq_nil_iff]
              intro x hx
              simp
              intro e
              exact hc (e ▸ hx)
            rw [this] at hk
            simp at hk
          exact stringsIndex_single_of_mem c t hmem hidx
        | some i =>
          rw [hidx] at iht2
          simp at iht2 ⊢
          simp [hac, iht2]

/-- The model name is the name without its `.` bytes (46). -/
theorem toGoModelName_eq_filter (name : GoString) :
    toGoModelName name = name.filter (fun b => b ≠ 46) := by
  have hdot : ascii "." = [46] := by decide
  have hemp : ascii "" = [] := by decide
  unfold toGoModelName stringsReplace
  rw [hdot, hemp]
  have h1 : ¬ (([46] : GoString) = [] ∨ (-1 : Int) = 0) := by decide
  rw [if_neg h1]
  have hc : stringsCount name [46] = (name.filter (fun b => b = 46)).length := by
    unfold stringsCount
    rw [if_neg (by decide)]
    exact countLoop_single 46 _ name (by omega)
  simp only []
  by_cases hm : stringsCount name [46] = 0
  · rw [if_pos hm]
    rw [hc] at hm
    have hnil := List.length_eq_zero.mp hm
    symm
    rw [List.filter_eq_self]
    intro x hx
    have := (List.filter_eq_nil_iff.mp hnil) x hx
    simpa using this
  · rw [if_neg hm]
    have hk : (if (-1 : Int) < 0 ∨ (stringsCount name [46] : Int) < -1
        then stringsCount name [46] else (-1 : Int).toNat) = stringsCount name [46] := by
      rw [if_pos (Or.inl (by decide))]
    rw [hk]
    exact replaceLoop_single 46 _ true name hc.symm

/-- Removing the first `#/definitions/` from a reference that starts with it
leaves the rest. -/
theorem stringsReplace_definitions_head (n : GoString) :
    stringsReplace (ascii "#/definitions/" ++ n) (ascii "#/definitions/") (ascii "") 1 = n := by
  have hemp : ascii "" = [] := by decide
  have hne : ascii "#/definitions/" ≠ [] := by decide
  have hlen : (ascii "#/definitions/").length = 14 := by decide
  generalize hP : ascii "#/definitions/" = P at hne hlen
  rw [hemp]
  unfold stringsReplace
  have h1 : ¬ (P = [] ∨ (1 : Int) = 0) := by
    rintro (h | h)
    · exact hne h
    · exact absurd h (by decide)
  rw [if_neg h1]
  have hcount : 1 ≤ stringsCount (P ++ n) P := by
    unfold stringsCount
    rw [if_neg hne]
    simp [countLoop, stringsIndex_at_head]
  simp only []
  rw [if_neg (by omega)]
  have hk : (if (1 : Int) < 0 ∨ (stringsCount (P ++ n) P : Int) < 1
      then stringsCount (P ++ n) P else (1 : Int).toNat) = 1 := by
    rw [if_neg]
    · rfl
    · rintro (h | h)
      · exact absurd h (by decide)
      · omega
  rw [hk]
  simp [replaceLoop, hne, stringsIndex_at_head]

/-! ## Lemmas: UTF-8 -/

/-- Decoding reads back a rune from its encoding, whatever follows it. -/
theorem DecodeRuneInString_runeToString (c : Nat) (hv : validRune c)
    (rest : GoString) :
    DecodeRuneInString (runeToString c ++ rest) = (c, (runeToString c).length) := by
  obtain ⟨hc, hsur⟩ := hv
  unfold runeToString
  by_cases h1 : c ≤ 0x7F
  · rw [if_pos h1]
    have : c < 0x80 := by omega
    simp [DecodeRuneInString, this]
  · rw [if_neg h1]
    by_cases h2 : c ≤ 0x7FF
    · rw [if_pos h2]
      simp only [List.cons_append, List.nil_append, DecodeRuneInString, List.length_cons,
        List.length_nil]
      rw [if_neg (by omega), if_neg (by omega), if_pos (by omega), if_neg (by omega)]
      congr 1
      omega
    · rw [if_neg h2, if_neg (by omega)]
      by_cases h3 : c ≤ 0xFFFF
      · rw [if_pos h3]
        simp only [List.cons_append, List.nil_append, DecodeRuneInString, List.length_cons,
          List.length_nil]
        rw [if_neg (by omega), if_neg (by omega), if_neg (by omega), if_pos (by omega)]
        rw [if_neg, if_neg (by omega)]
        · congr 1
          omega
        · split_ifs <;> omega
      · rw [if_neg h3]
        simp only [List.cons_append, List.nil_append, DecodeRuneInString, List.length_cons,
          List.length_nil]
        rw [if_neg (by omega), if_neg (by omega), if_neg (by omega), if_neg (by omega),
          if_pos (by omega)]
        rw [if_neg, if_neg (by omega), if_neg (by omega)]
        · congr 1
          omega
        · split_ifs <;> omega

theorem upperFirst_runeToString (caseTable : Nat → Nat) (c : Nat) (hv : validRune c)
    (rest : GoString) :
    upperFirst caseTable (runeToString c ++ rest)
      = runeToString (unicodeToUpper caseTable c) ++ rest := by
  unfold upperFirst
  rw [DecodeRuneInString_runeToString c hv rest]
  simp

theorem hasSuffix_append (s suf : GoString) : hasSuffix (s ++ suf) suf = true := by
  simp [hasSuffix]

theorem toGoPublicFieldName_Id (caseTable : Nat → Nat) (name : GoString)
    (h : hasSuffix name (ascii "Id") = true) :
    toGoPublicFieldName caseTable name
      = upperFirst caseTable (name.take (name.length - 2) ++ ascii "ID") := by
  have hid : name ≠ ascii "id" := by
    intro e
    rw [e] at h
    exact absurd h (by decide)
  simp only [toGoPublicFieldName, if_neg hid, h, if_true, upperFirst]

theorem toGoPublicFieldName_Url (caseTable : Nat → Nat) (name : GoString)
    (h : hasSuffix name (ascii "Url") = true) :
    toGoPublicFieldName caseTable name
      = upperFirst caseTable (name.take (name.length - 3) ++ ascii "URL") := by
  have hid : name ≠ ascii "id" := by
    intro e
    rw [e] at h
    exact absurd h (by decide)
  have hId : hasSuffix name (ascii "Id") = false := by
    cases h2 : hasSuffix name (ascii "Id") with
    | false => rfl
    | true =>
      exfalso
      have e2 : ascii "Id" = [73, 100] := by decide
      have e3 : ascii "Url" = [85, 114, 108] := by decide
      rw [e2] at h2
      rw [e3] at h
      simp only [hasSuffix, Bool.and_eq_true, decide_eq_true_eq, List.length_cons,
        List.length_nil] at h h2
      obtain ⟨hl3, hd3⟩ := h
      obtain ⟨_, hd2⟩ := h2
      have hsplit : List.drop (name.length - 2) name
          = List.drop 1 (List.drop (name.length - 3) name) := by
        rw [List.drop_drop]
        congr 1
        omega
      rw [hsplit, hd3] at hd2
      simp at hd2
  simp only [toGoPublicFieldName, if_neg hid, hId, h, if_true, upperFirst]
  rfl

/-! ## Lemmas: maps -/

theorem propsResolvable_mem {props : Properties} (h : propsResolvable props = true)
    {kv : GoString × Option Property} (hkv : kv ∈ props) : ptrResolvable kv.2 = true :=
  (List.all_eq_true.mp h) kv hkv

theorem docResolvable_mem {defs : Definitions} (h : docResolvable defs = true)
    {kv : GoString × Option Definition} (hkv : kv ∈ defs) :
    ∃ d, kv.2 = some d ∧ propsResolvable d.Properties = true := by
  have := (List.all_eq_true.mp h) kv hkv
  cases hd : kv.2 with
  | none => rw [hd] at this; exact Bool.noConfusion this
  | some d => rw [hd] at this; exact ⟨d, rfl, this⟩


theorem GoMap.has_eq_true_iff {V : Type} (m : GoMap V) (key : GoString) :
    GoMap.has m key = true ↔ key ∈ m.keys := by
  induction m with
  | nil => simp [GoMap.has, GoMap.keys]
  | cons kv rest ih =>
    obtain ⟨k, v⟩ := kv
    by_cases h : k = key
    · simp [GoMap.has, GoMap.keys, h]
    · have ih2 : GoMap.has rest key = true ↔ key ∈ List.map Prod.fst rest := ih
      simp [GoMap.has, GoMap.keys, h, ih2, Ne.symm h]

theorem GoMap.get_mem {V : Type} (m : GoMap (Option V)) (key : GoString)
    (h : key ∈ m.keys) : (key, GoMap.get m key) ∈ m := by
  induction m with
  | nil => simp [GoMap.keys] at h
  | cons kv rest ih =>
    obtain ⟨k, v⟩ := kv
    by_cases hk : k = key
    · simp [GoMap.get, hk]
    · have hr : key ∈ GoMap.keys rest := by
        simp only [GoMap.keys, List.map_cons, List.mem_cons] at h
        rcases h with e | e
        · exact absurd e.symm hk
        · exact e
      simp only [GoMap.get, if_neg hk, List.mem_cons]
      exact Or.inr (ih hr)

theorem GoMap.get_of_mem {V : Type} (m : GoMap (Option V)) (hwf : GoMap.WF m)
    (key : GoString) (v : Option V) (h : (key, v) ∈ m) : GoMap.get m key = v := by
  induction m with
  | nil => simp at h
  | cons kv rest ih =>
    obtain ⟨k, w⟩ := kv
    have hnd : k ∉ List.map Prod.fst rest ∧ (List.map Prod.fst rest).Nodup := by
      simpa [GoMap.WF, GoMap.keys] using hwf
    rcases List.mem_cons.mp h with e | e
    · cases e
      simp [GoMap.get]
    · have hne : ¬ k = key := by
        intro hk
        apply hnd.1
        rw [hk]
        exact List.mem_map_of_mem Prod.fst e
      simp only [GoMap.get, if_neg hne]
      exact ih hnd.2 e

theorem isRequiredField_eq (requiredFields : List GoString) (fieldName : GoString) :
    isRequiredField requiredFields fieldName = decide (fieldName ∈ requiredFields) := by
  induction requiredFields with
  | nil => simp [isRequiredField]
  | cons f rest ih =>
    by_cases h : f = fieldName
    · simp [isRequiredField, h]
    · simp [isRequiredField, h, ih, Ne.symm h]

/-! ## Lemmas: `toFieldType` -/

/-- The `array` case of `toFieldTypeAt` is the recursive call of the method on
the pointer `prop.Items`. -/
theorem toFieldType_array (defs : Definitions) (ref format : GoString)
    (items : Option Property) (required : Bool) :
    toFieldType defs (some (.mk ref format TypeArray items)) required =
      (toFieldType defs items false).map (fun t => ascii "[]" ++ t) := by
  have h1 : TypeArray ≠ TypeString := by decide
  have h2 : TypeArray ≠ TypeBoolean := by decide
  have h3 : TypeArray ≠ TypeNumber := by decide
  have h4 : TypeArray ≠ TypeInteger := by decide
  cases items with
  | none => simp [toFieldType, toFieldTypeAt, h1, h2, h3, h4]
  | some item => simp [toFieldType, toFieldTypeAt, h1, h2, h3, h4]

/-- The reference resolution at the end of `toFieldType`, reached by every type
tag the switch does not return from. -/
theorem toFieldType_byRef (defs : Definitions) (ref format typ : GoString)
    (items : Option Property) (required : Bool)
    (hs : typ ≠ TypeString) (hb : typ ≠ TypeBoolean) (hn : typ ≠ TypeNumber)
    (ha : typ ≠ TypeArray)
    (hi : ¬ (typ = TypeInteger ∧ (format = FormatInt32 ∨ format = FormatInt64))) :
    toFieldType defs (some (.mk ref format typ items)) required =
      some (ascii "*" ++ toGoModelName (findDefName defs ref)) := by
  by_cases hint : typ = TypeInteger
  · have h32 : format ≠ FormatInt32 := fun e => hi ⟨hint, Or.inl e⟩
    have h64 : format ≠ FormatInt64 := fun e => hi ⟨hint, Or.inr e⟩
    subst hint
    cases items <;> simp [toFieldType, toFieldTypeAt, hs, hb, hn, h32, h64]
  · cases items <;> simp [toFieldType, toFieldTypeAt, hs, hb, hn, ha, hint]

/-- The mapper returns at a property exactly when the chain of `items` behind
it has no nil pointer. -/
theorem toFieldTypeAt_isSome (defs : Definitions) :
    ∀ (prop : Property) (required : Bool),
      (toFieldTypeAt defs prop required).isSome = prop.resolvable
  | .mk ref format typ items, required => by
    by_cases ha : typ = TypeArray
    · subst ha
      have h := toFieldType_array defs ref format items required
      simp only [toFieldType] at h
      rw [h]
      cases items with
      | none => simp [toFieldType, Property.resolvable]
      | some item =>
        have ih := toFieldTypeAt_isSome defs item false
        simp [toFieldType, Property.resolvable, ih]
    · unfold toFieldTypeAt Property.resolvable
      simp only [if_neg ha]
      split_ifs <;> rfl

theorem toFieldType_isSome (defs : Definitions) (prop : Option Property) (required : Bool) :
    (toFieldType defs prop required).isSome = ptrResolvable prop := by
  cases prop with
  | none => rfl
  | some p => exact toFieldTypeAt_isSome defs p required

/-! ## Lemmas: the order of `sort.Strings` -/

theorem strLess_irrefl : ∀ a : GoString, strLess a a = false
  | [] => rfl
  | x :: xs => by simp [strLess, strLess_irrefl xs]

theorem strLess_asymm : ∀ a b : GoString, strLess a b = true → strLess b a = false
  | [], [] => by simp [strLess]
  | [], _ :: _ => by simp [strLess]
  | _ :: _, [] => by simp [strLess]
  | x :: xs, y :: ys => by
    intro h
    simp only [strLess] at h ⊢
    by_cases hxy : x < y
    · have : ¬ y < x := by omega
      simp [this, hxy]
    · by_cases hyx : y < x
      · simp [hxy, hyx] at h
      · simp only [hxy, hyx, if_false] at h ⊢
        exact strLess_asymm xs ys h

theorem strLess_antisymm : ∀ a b : GoString,
    strLess a b = false → strLess b a = false → a = b
  | [], [] => by simp
  | [], _ :: _ => by simp [strLess]
  | _ :: _, [] => by simp [strLess]
  | x :: xs, y :: ys => by
    intro h1 h2
    simp only [strLess] at h1 h2
    by_cases hxy : x < y
    · simp [hxy] at h1
    · by_cases hyx : y < x
      · simp [hyx] at h2
      · simp only [hxy, hyx, if_false] at h1 h2
        have e : x = y := by omega
        rw [e, strLess_antisymm xs ys h1 h2]

theorem strLess_trans : ∀ a b c : GoString,
    strLess a b = true → strLess b c = true → strLess a c = true
  | [], b, [] => by
    intro h1 h2
    cases b <;> simp [strLess] at h1 h2
  | [], _, _ :: _ => by simp [strLess]
  | _ :: _, [], _ => by simp [strLess]
  | _ :: _, _ :: _, [] => by simp [strLess]
  | x :: xs, y :: ys, z :: zs => by
    intro h1 h2
    simp only [strLess] at h1 h2 ⊢
    by_cases hxy : x < y
    · by_cases hyz : y < z
      · have : x < z := by omega
        simp [this]
      · by_cases hzy : z < y
        · simp [hyz, hzy] at h2
        · have : x < z := by omega
          simp [this]
    · by_cases hyx : y < x
      · simp [hxy, hyx] at h1
      · simp only [hxy, hyx, if_false] at h1
        have e : x = y := by omega
        subst e
        by_cases hxz : x < z
        · simp [hxz]
        · by_cases hzx : z < x
          · simp [hxz, hzx] at h2
          · simp only [hxz, hzx, if_false] at h2 ⊢
            exact strLess_trans xs ys zs h1 h2

theorem strLE_total (a b : GoString) : strLE a b ∨ strLE b a := by
  unfold strLE
  cases h : strLess b a with
  | false => exact Or.inl rfl
  | true => exact Or.inr (strLess_asymm b a h)

theorem strLE_trans (a b c : GoString) (h1 : strLE a b) (h2 : strLE b c) : strLE a c := by
  unfold strLE at *
  cases h : strLess c a with
  | false => rfl
  | true =>
    -- `c < a`, `¬ b < a`, `¬ c < b`
    exfalso
    cases hab : strLess a b with
    | false =>
      have e : a = b := strLess_antisymm a b hab h1
      subst e
      rw [h] at h2
      exact Bool.noConfusion h2
    | true =>
      have := strLess_trans c a b h hab
      rw [this] at h2
      exact Bool.noConfusion h2

instance strLE.isTotal : IsTotal GoString strLE := ⟨strLE_total⟩

instance strLE.isTrans : IsTrans GoString strLE := ⟨strLE_trans⟩

theorem sortStrings_perm (x : List GoString) : (sortStrings x).Perm x :=
  List.perm_insertionSort strLE x

theorem sortStrings_mem (x : List GoString) (k : GoString) : k ∈ sortStrings x ↔ k ∈ x :=
  (sortStrings_perm x).mem_iff

theorem sortStrings_sorted (x : List GoString) : (sortStrings x).Pairwise strLE :=
  List.sorted_insertionSort strLE x

theorem sortStrings_nodup (x : List GoString) (h : x.Nodup) : (sortStrings x).Nodup :=
  (sortStrings_perm x).nodup_iff.mpr h

/-- On distinct strings the result of `sort.Strings` is strictly increasing. -/
theorem sortStrings_strict (x : List GoString) (h : x.Nodup) :
    (sortStrings x).Pairwise (fun a b => strLess a b = true) := by
  have hs := sortStrings_sorted x
  have hn : (sortStrings x).Pairwise (fun a b => a ≠ b) := sortStrings_nodup x h
  refine (hs.and hn).imp ?_
  intro a b hab
  obtain ⟨hle, hne⟩ := hab
  cases hlt : strLess a b with
  | true => rfl
  | false => exact absurd (strLess_antisymm a b hlt hle) hne

/-! ## Lemmas: the loops -/

theorem appendEach_forall₂ {α : Type} (body : GoString → Option α) :
    ∀ (keys : List GoString) (out : List α), appendEach body keys = some out →
      List.Forall₂ (fun k x => body k = some x) keys out
  | [], out, h => by
    simp [appendEach] at h
    subst h
    exact List.Forall₂.nil
  | key :: rest, out, h => by
    simp only [appendEach] at h
    cases hb : body key with
    | none => rw [hb] at h; exact Option.noConfusion h
    | some x =>
      rw [hb] at h
      cases hr : appendEach body rest with
      | none => rw [hr] at h; exact Option.noConfusion h
      | some tl =>
        rw [hr] at h
        simp at h
        subst h
        exact List.Forall₂.cons hb (appendEach_forall₂ body rest tl hr)

theorem appendEach_some {α : Type} (body : GoString → Option α) :
    ∀ (keys : List GoString), (∀ k ∈ keys, (body k).isSome = true) →
      ∃ out, appendEach body keys = some out
  | [], _ => ⟨[], rfl⟩
  | key :: rest, h => by
    obtain ⟨x, hx⟩ := Option.isSome_iff_exists.mp (h key (List.mem_cons_self _ _))
    obtain ⟨tl, htl⟩ := appendEach_some body rest
      (fun k hk => h k (List.mem_cons_of_mem _ hk))
    exact ⟨x :: tl, by simp [appendEach, hx, htl]⟩

/-- The elements a loop appends, read back through a projection `key` that
recovers the key of each element. -/
theorem forall₂_map_key {α : Type} (R : GoString → α → Prop) (key : α → GoString)
    (hkey : ∀ k x, R k x → key x = k) :
    ∀ (keys : List GoString) (out : List α), List.Forall₂ R keys out → out.map key = keys
  | _, _, List.Forall₂.nil => rfl
  | _, _, List.Forall₂.cons h t => by
    simp [hkey _ _ h, forall₂_map_key R key hkey _ _ t]

/-- In the output of a loop over distinct keys, the elements of one key are
exactly the one the body made for it. -/
theorem forall₂_filter_key {α : Type} (R : GoString → α → Prop) (key : α → GoString)
    (hkey : ∀ k x, R k x → key x = k) (k0 : GoString) (x0 : α)
    (hfun : ∀ x, R k0 x → x = x0) :
    ∀ (keys : List GoString) (out : List α), List.Forall₂ R keys out → keys.Nodup →
      k0 ∈ keys → out.filter (fun x => decide (key x = k0)) = [x0]
  | _, _, List.Forall₂.nil, _, hm => by simp at hm
  | k :: ks, x :: xs, List.Forall₂.cons h t, hnd, hm => by
    have hnd2 : k ∉ ks ∧ ks.Nodup := List.nodup_cons.mp hnd
    by_cases hk : k = k0
    · subst hk
      have hx : x = x0 := hfun x h
      have hkx : key x = k := hkey _ _ h
      have hrest : xs.filter (fun y => decide (key y = k)) = [] := by
        rw [List.filter_eq_nil_iff]
        intro y hy
        have hmap := forall₂_map_key R key hkey ks xs t
        have : key y ∈ ks := by
          rw [← hmap]
          exact List.mem_map_of_mem key hy
        simp only [decide_eq_true_eq]
        intro e
        exact hnd2.1 (e ▸ this)
      subst hx
      simp [List.filter_cons, hkx, hrest]
    · have hm2 : k0 ∈ ks := by
        rcases List.mem_cons.mp hm with e | e
        · exact absurd e.symm hk
        · exact e
      have hkx : key x = k := hkey _ _ h
      have ih := forall₂_filter_key R key hkey k0 x0 hfun ks xs t hnd2.2 hm2
      simp [List.filter_cons, hkx, hk, ih]

theorem toGoModelField_spec (caseTable : Nat → Nat) (defs : Definitions)
    (requiredFields : List GoString) (props : Properties) (key : GoString)
    (field : goModelField)
    (h : toGoModelField caseTable defs requiredFields props key = some field) :
    ∃ typ, toFieldType defs (GoMap.get props key) (decide (key ∈ requiredFields)) = some typ ∧
      field = { Name := toGoPublicFieldName caseTable key, TypeName := typ,
                Tags := ascii "`json:\"" ++ key ++ ascii ",omitempty\"`",
                swaggerFieldName := key } := by
  unfold toGoModelField at h
  rw [isRequiredField_eq] at h
  cases ht : toFieldType defs (GoMap.get props key) (decide (key ∈ requiredFields)) with
  | none => rw [ht] at h; exact Option.noConfusion h
  | some typ =>
    rw [ht] at h
    simp at h
    exact ⟨typ, rfl, h.symm⟩

theorem toGoModelFields_some (caseTable : Nat → Nat) (defs : Definitions)
    (requiredFields : List GoString) (props : Properties)
    (hres : propsResolvable props = true) :
    ∃ out, toGoModelFields caseTable defs requiredFields props = some out := by
  apply appendEach_some
  intro k hk
  have hk2 : k ∈ GoMap.keys props := (sortStrings_mem _ k).mp hk
  have hmem := GoMap.get_mem props k hk2
  have hr : ptrResolvable (GoMap.get props k) = true := propsResolvable_mem hres hmem
  unfold toGoModelField
  rw [Option.isSome_map', toFieldType_isSome]
  exact hr

theorem toGoModelFields_keys (caseTable : Nat → Nat) (defs : Definitions)
    (requiredFields : List GoString) (props : Properties) (out : List goModelField)
    (h : toGoModelFields caseTable defs requiredFields props = some out) :
    out.map goModelField.swaggerFieldName = sortStrings (GoMap.keys props) := by
  apply forall₂_map_key _ _ _ _ _ (appendEach_forall₂ _ _ _ h)
  intro k x hx
  obtain ⟨typ, _, hf⟩ := toGoModelField_spec _ _ _ _ _ _ hx
  rw [hf]

theorem GoMap.get_some_mem {V : Type} (m : GoMap (Option V)) (key : GoString) (v : V)
    (h : GoMap.get m key = some v) : (key, some v) ∈ m := by
  induction m with
  | nil => simp [GoMap.get] at h
  | cons kv rest ih =>
    obtain ⟨k, w⟩ := kv
    by_cases hk : k = key
    · simp only [GoMap.get, if_pos hk] at h
      simp [hk, h]
    · simp only [GoMap.get, if_neg hk] at h
      exact List.mem_cons_of_mem _ (ih h)

theorem toGoModel_spec (caseTable : Nat → Nat) (defs : Definitions) (key : GoString)
    (model : goModel) (h : toGoModel caseTable defs key = some model) :
    ∃ d, GoMap.get defs key = some d ∧ model.Name = toGoModelName key ∧
      toGoModelFields caseTable defs d.Required d.Properties = some model.Fields := by
  unfold toGoModel at h
  cases hd : GoMap.get defs key with
  | none => rw [hd] at h; exact Option.noConfusion h
  | some d =>
    rw [hd] at h
    simp only [] at h
    cases hf : toGoModelFields caseTable defs d.Required d.Properties with
    | none => rw [hf] at h; exact Option.noConfusion h
    | some fields =>
      rw [hf] at h
      simp at h
      subst h
      exact ⟨d, rfl, rfl, hf⟩

theorem goModels_some (caseTable : Nat → Nat) (defs : Definitions)
    (hres : docResolvable defs = true) : ∃ out, goModels caseTable defs = some out := by
  apply appendEach_some
  intro k hk
  have hk2 : k ∈ GoMap.keys defs := (sortStrings_mem _ k).mp hk
  have hmem := GoMap.get_mem defs k hk2
  obtain ⟨d, hd, hp⟩ := docResolvable_mem hres hmem
  have hd2 : GoMap.get defs k = some d := hd
  obtain ⟨fields, hf⟩ := toGoModelFields_some caseTable defs d.Required d.Properties hp
  simp [toGoModel, hd2, hf]

theorem toGoPublicFieldName_other (caseTable : Nat → Nat) (name : GoString)
    (hid : name ≠ ascii "id") (hId : hasSuffix name (ascii "Id") = false)
    (hUrl : hasSuffix name (ascii "Url") = false) :
    toGoPublicFieldName caseTable name = upperFirst caseTable name := by
  simp only [toGoPublicFieldName, if_neg hid, hId, hUrl, upperFirst]
  rfl

theorem petDoc_wf : docWF petDoc := by
  refine ⟨by decide, ?_⟩
  intro k d h
  simp only [petDoc, List.mem_singleton, Prod.mk.injEq, Option.some.injEq] at h
  obtain ⟨_, hd⟩ := h
  subst hd
  decide

/-! ## Lemmas: `getImports` -/

theorem setInsert_idem (imports : List GoString) (key : GoString) :
    setInsert (setInsert imports key) key = setInsert imports key := by
  unfold setInsert
  by_cases h : key ∈ imports
  · simp [h]
  · simp [h]

theorem importsOfProps_eq :
    ∀ (props : Properties) (imports : List GoString),
      importsOfProps props imports =
        if propsNonNull props = true then
          some (if propsHaveDateTime props = true then setInsert imports (ascii "time")
                else imports)
        else none
  | [], imports => by simp [importsOfProps, propsNonNull, propsHaveDateTime]
  | (k, none) :: rest, imports => by
    simp [importsOfProps, propsNonNull]
  | (k, some p) :: rest, imports => by
    have ih1 := importsOfProps_eq rest (setInsert imports (ascii "time"))
    have ih2 := importsOfProps_eq rest imports
    have hnn : propsNonNull ((k, some p) :: rest) = propsNonNull rest := by
      simp [propsNonNull]
    by_cases hp : p.Typ = TypeString ∧ p.Format = FormatDateTime
    · have hdt : propsHaveDateTime ((k, some p) :: rest) = true := by
        simp [propsHaveDateTime, hp]
      simp only [importsOfProps, if_pos hp, ih1, hnn, hdt, setInsert_idem, if_true]
      by_cases hr : propsHaveDateTime rest = true <;> simp [hr]
    · have hdt : propsHaveDateTime ((k, some p) :: rest) = propsHaveDateTime rest := by
        simp [propsHaveDateTime, hp]
      simp only [importsOfProps, if_neg hp, ih2, hnn, hdt]

theorem importsOfDefs_eq :
    ∀ (defs : Definitions) (imports : List GoString),
      importsOfDefs defs imports =
        if docNonNull defs = true then
          some (if docHasDateTime defs = true then setInsert imports (ascii "time")
                else imports)
        else none
  | [], imports => by simp [importsOfDefs, docNonNull, docHasDateTime]
  | (k, none) :: rest, imports => by
    simp [importsOfDefs, docNonNull]
  | (k, some d) :: rest, imports => by
    have hnn : docNonNull ((k, some d) :: rest)
        = (propsNonNull d.Properties && docNonNull rest) := by
      simp [docNonNull]
    have hdt : docHasDateTime ((k, some d) :: rest)
        = (propsHaveDateTime d.Properties || docHasDateTime rest) := by
      simp [docHasDateTime]
    simp only [importsOfDefs, importsOfProps_eq, hnn, hdt]
    by_cases h1 : propsNonNull d.Properties = true
    · simp only [h1, if_true, Bool.true_and]
      rw [importsOfDefs_eq rest]
      by_cases h2 : docNonNull rest = true
      · simp only [h2, if_true]
        by_cases h3 : propsHaveDateTime d.Properties = true
        · by_cases h4 : docHasDateTime rest = true <;> simp [h3, h4, setInsert_idem]
        · by_cases h4 : docHasDateTime rest = true <;> simp [h3, h4]
      · simp [h2]
    · simp [h1]

/-- The result of `getImports` in closed form. -/
theorem getImports_eq (defs : Definitions) :
    getImports defs =
      if docNonNull defs = true then
        some (if docHasDateTime defs = true then [ascii "time"] else [])
      else none := by
  unfold getImports
  rw [importsOfDefs_eq]
  have : setInsert [] (ascii "time") = [ascii "time"] := by decide
  rw [this]

theorem docHasDateTime_iff (defs : Definitions) :
    docHasDateTime defs = true ↔
      ∃ k d kp p, (k, some d) ∈ defs ∧ (kp, some p) ∈ d.Properties ∧
        p.Typ = TypeString ∧ p.Format = FormatDateTime := by
  unfold docHasDateTime
  rw [List.any_eq_true]
  constructor
  · rintro ⟨⟨k, od⟩, hmem, h⟩
    cases od with
    | none => simp at h
    | some d =>
      simp only [propsHaveDateTime] at h
      rw [List.any_eq_true] at h
      obtain ⟨⟨kp, op⟩, hpm, hp⟩ := h
      cases op with
      | none => simp at hp
      | some p =>
        simp only [decide_eq_true_eq] at hp
        exact ⟨k, d, kp, p, hmem, hpm, hp.1, hp.2⟩
  · rintro ⟨k, d, kp, p, hmem, hpm, h1, h2⟩
    refine ⟨(k, some d), hmem, ?_⟩
    simp only [propsHaveDateTime]
    rw [List.any_eq_true]
    exact ⟨(kp, some p), hpm, by simp [h1, h2]⟩

/-! ## Lemmas: `toGoPublicFieldName` applied twice -/

theorem runeToString_invalid (r : Nat) (h : ¬ validRune r) :
    runeToString r = [0xEF, 0xBF, 0xBD] := by
  unfold validRune at h
  unfold runeToString
  rw [if_neg (by omega), if_neg (by omega), if_pos (by omega)]

theorem validRune_RuneError : validRune 0xFFFD := by decide

theorem runeToString_RuneError : runeToString 0xFFFD = [0xEF, 0xBF, 0xBD] := by decide

/-- The default rule leaves its own results alone, when upper-casing is
idempotent and leaves U+FFFD alone. -/
theorem upperFirst_idem (caseTable : Nat → Nat)
    (hidem : ∀ r, unicodeToUpper caseTable (unicodeToUpper caseTable r)
      = unicodeToUpper caseTable r)
    (hfffd : caseTable 0xFFFD = 0xFFFD) (x : GoString) :
    upperFirst caseTable (upperFirst caseTable x) = upperFirst caseTable x := by
  generalize hu : unicodeToUpper caseTable (DecodeRuneInString x).1 = u
  have hx : upperFirst caseTable x
      = runeToString u ++ x.drop (DecodeRuneInString x).2 := by
    unfold upperFirst
    rw [hu]
  rw [hx]
  by_cases hv : validRune u
  · rw [upperFirst_runeToString caseTable u hv, ← hu, hidem]
  · rw [runeToString_invalid u hv, ← runeToString_RuneError,
      upperFirst_runeToString caseTable 0xFFFD validRune_RuneError]
    have : unicodeToUpper caseTable 0xFFFD = 0xFFFD := by
      unfold unicodeToUpper
      rw [if_neg (by decide), hfffd]
    rw [this]

theorem toGoPublicFieldName_cases (caseTable : Nat → Nat) (name : GoString) :
    toGoPublicFieldName caseTable name = ascii "ID" ∨
      ∃ x, toGoPublicFieldName caseTable name = upperFirst caseTable x := by
  by_cases hid : name = ascii "id"
  · left
    rw [hid]
    rfl
  · right
    cases hId : hasSuffix name (ascii "Id") with
    | true => exact ⟨_, toGoPublicFieldName_Id caseTable name hId⟩
    | false =>
      cases hUrl : hasSuffix name (ascii "Url") with
      | true => exact ⟨_, toGoPublicFieldName_Url caseTable name hUrl⟩
      | false => exact ⟨_, toGoPublicFieldName_other caseTable name hid hId hUrl⟩

theorem latin1CaseTable_idem (r : Nat) :
    unicodeToUpper latin1CaseTable (unicodeToUpper latin1CaseTable r)
      = unicodeToUpper latin1CaseTable r := by
  unfold unicodeToUpper latin1CaseTable
  split_ifs <;> omega

instance strLE.isAntisymm : IsAntisymm GoString strLE :=
  ⟨fun a b hab hba => strLess_antisymm a b hba hab⟩

theorem sortStrings_eq_of_perm (x y : List GoString) (h : x.Perm y) :
    sortStrings x = sortStrings y :=
  List.eq_of_perm_of_sorted
    (((sortStrings_perm x).trans h).trans (sortStrings_perm y).symm)
    (sortStrings_sorted x) (sortStrings_sorted y)

theorem GoMap.get_not_mem {V : Type} (m : GoMap (Option V)) (key : GoString)
    (h : key ∉ m.keys) : GoMap.get m key = none := by
  induction m with
  | nil => rfl
  | cons kv rest ih =>
    obtain ⟨k, v⟩ := kv
    have h2 : ¬ k = key ∧ key ∉ GoMap.keys rest := by
      simp only [GoMap.keys, List.map_cons, List.mem_cons, not_or] at h
      exact ⟨fun e => h.1 e.symm, h.2⟩
    simp only [GoMap.get, if_neg h2.1]
    exact ih h2.2

theorem GoMap.get_perm {V : Type} (m m' : GoMap (Option V)) (hp : m.Perm m')
    (hwf : GoMap.WF m) (key : GoString) : GoMap.get m' key = GoMap.get m key := by
  have hkeys : (GoMap.keys m).Perm (GoMap.keys m') := hp.map Prod.fst
  have hwf' : GoMap.WF m' := hkeys.nodup_iff.mp hwf
  by_cases hk : key ∈ GoMap.keys m
  · have hmem := hp.mem_iff.mp (GoMap.get_mem m key hk)
    exact GoMap.get_of_mem m' hwf' key _ hmem
  · have hk' : key ∉ GoMap.keys m' := fun h => hk (hkeys.mem_iff.mpr h)
    rw [GoMap.get_not_mem m key hk, GoMap.get_not_mem m' key hk']

theorem GoMap.has_perm {V : Type} (m m' : GoMap V)
    (hkeys : (GoMap.keys m).Perm (GoMap.keys m')) (key : GoString) :
    GoMap.has m' key = GoMap.has m key := by
  rw [Bool.eq_iff_iff, GoMap.has_eq_true_iff, GoMap.has_eq_true_iff]
  exact hkeys.mem_iff.symm

theorem all_eq_of_perm {α : Type} (f : α → Bool) (l l' : List α) (h : l.Perm l') :
    l'.all f = l.all f := by
  rw [Bool.eq_iff_iff, List.all_eq_true, List.all_eq_true]
  exact ⟨fun H x hx => H x (h.mem_iff.mp hx), fun H x hx => H x (h.mem_iff.mpr hx)⟩

theorem any_eq_of_perm {α : Type} (f : α → Bool) (l l' : List α) (h : l.Perm l') :
    l'.any f = l.any f := by
  rw [Bool.eq_iff_iff, List.any_eq_true, List.any_eq_true]
  exact ⟨fun ⟨x, hx, hf⟩ => ⟨x, h.mem_iff.mpr hx, hf⟩,
    fun ⟨x, hx, hf⟩ => ⟨x, h.mem_iff.mp hx, hf⟩⟩

/-- The mapper reads the definitions map of a property only through the
comma-ok lookup of `findDefName`. -/
theorem toFieldTypeAt_congr (defs defs' : Definitions)
    (h : ∀ k, GoMap.has defs' k = GoMap.has defs k) :
    ∀ (prop : Property) (required : Bool),
      toFieldTypeAt defs' prop required = toFieldTypeAt defs prop required
  | .mk ref format typ none, required => by
    simp only [toFieldTypeAt, findDefName, h]
  | .mk ref format typ (some item), required => by
    have ih := toFieldTypeAt_congr defs defs' h item false
    simp only [toFieldTypeAt, findDefName, h, ih]

theorem toFieldType_congr (defs defs' : Definitions)
    (h : ∀ k, GoMap.has defs' k = GoMap.has defs k) (prop : Option Property)
    (required : Bool) : toFieldType defs' prop required = toFieldType defs prop required := by
  cases prop with
  | none => rfl
  | some p => exact toFieldTypeAt_congr defs defs' h p required

theorem appendEach_congr {α : Type} (f g : GoString → Option α) :
    ∀ (keys : List GoString), (∀ k ∈ keys, f k = g k) →
      appendEach f keys = appendEach g keys
  | [], _ => rfl
  | key :: rest, h => by
    have h1 := h key (List.mem_cons_self _ _)
    have h2 := appendEach_congr f g rest (fun k hk => h k (List.mem_cons_of_mem _ hk))
    simp only [appendEach, h1, h2]

theorem toGoModelFields_congr (caseTable : Nat → Nat) (defs defs' : Definitions)
    (h : ∀ k, GoMap.has defs' k = GoMap.has defs k)
    (requiredFields : List GoString) (props props' : Properties)
    (hp : props.Perm props') (hwf : GoMap.WF props) :
    toGoModelFields caseTable defs' requiredFields props'
      = toGoModelFields caseTable defs requiredFields props := by
  unfold toGoModelFields
  rw [sortStrings_eq_of_perm (GoMap.keys props') (GoMap.keys props) (hp.map Prod.fst).symm]
  apply appendEach_congr
  intro k _
  unfold toGoModelField
  rw [GoMap.get_perm props props' hp hwf k, toFieldType_congr defs defs' h]

theorem forall₂_keys (defs mid : Definitions)
    (h : List.Forall₂ (fun a b => a.1 = b.1 ∧ samePtrDefinition a.2 b.2) defs mid) :
    GoMap.keys mid = GoMap.keys defs := by
  induction h with
  | nil => rfl
  | cons hab _ ih =>
    simp only [GoMap.keys, List.map_cons] at ih ⊢
    rw [ih, hab.1]

theorem forall₂_get (defs mid : Definitions)
    (h : List.Forall₂ (fun a b => a.1 = b.1 ∧ samePtrDefinition a.2 b.2) defs mid)
    (key : GoString) : samePtrDefinition (GoMap.get defs key) (GoMap.get mid key) := by
  induction h with
  | nil => exact True.intro
  | @cons a b l₁ l₂ hab _ ih =>
    obtain ⟨k, v⟩ := a
    obtain ⟨k', v'⟩ := b
    have hk : k = k' := hab.1
    subst hk
    by_cases e : k = key
    · simp only [GoMap.get, if_pos e]
      exact hab.2
    · simp only [GoMap.get, if_neg e]
      exact ih

theorem samePtrDefinition_all (f : Properties → Bool)
    (hf : ∀ p p' : Properties, p.Perm p' → f p' = f p)
    (a b : Option Definition) :
    samePtrDefinition a b →
    (match b with
      | none => false
      | some d => f d.Properties)
    = (match a with
      | none => false
      | some d => f d.Properties) := by
  intro h
  cases a with
  | none =>
    cases b with
    | none => rfl
    | some e => exact False.elim h
  | some d =>
    cases b with
    | none => exact False.elim h
    | some e => exact hf _ _ h.2.2

theorem forall₂_all (f : Properties → Bool)
    (hf : ∀ p p' : Properties, p.Perm p' → f p' = f p) (defs mid : Definitions)
    (h : List.Forall₂ (fun a b => a.1 = b.1 ∧ samePtrDefinition a.2 b.2) defs mid) :
    (mid.all fun kv => match kv.2 with
      | none => false
      | some d => f d.Properties)
    = (defs.all fun kv => match kv.2 with
      | none => false
      | some d => f d.Properties) := by
  induction h with
  | nil => rfl
  | @cons a b l₁ l₂ hab _ ih =>
    rw [List.all_cons, List.all_cons, ih]
    congr 1
    exact samePtrDefinition_all f hf a.2 b.2 hab.2

theorem forall₂_any (f : Properties → Bool)
    (hf : ∀ p p' : Properties, p.Perm p' → f p' = f p) (defs mid : Definitions)
    (h : List.Forall₂ (fun a b => a.1 = b.1 ∧ samePtrDefinition a.2 b.2) defs mid) :
    (mid.any fun kv => match kv.2 with
      | none => false
      | some d => f d.Properties)
    = (defs.any fun kv => match kv.2 with
      | none => false
      | some d => f d.Properties) := by
  induction h with
  | nil => rfl
  | @cons a b l₁ l₂ hab _ ih =>
    rw [List.any_cons, List.any_cons, ih]
    congr 1
    exact samePtrDefinition_all f hf a.2 b.2 hab.2

theorem getImports_sameDocument (defs defs' : Definitions) (h : sameDocument defs defs') :
    getImports defs' = getImports defs := by
  obtain ⟨mid, hfa, hperm⟩ := h
  have hnn : docNonNull defs' = docNonNull defs := by
    unfold docNonNull
    rw [all_eq_of_perm _ mid defs' hperm]
    exact forall₂_all propsNonNull (fun p p' hp => all_eq_of_perm _ p p' hp) defs mid hfa
  have hdt : docHasDateTime defs' = docHasDateTime defs := by
    unfold docHasDateTime
    rw [any_eq_of_perm _ mid defs' hperm]
    exact forall₂_any propsHaveDateTime (fun p p' hp => any_eq_of_perm _ p p' hp)
      defs mid hfa
  rw [getImports_eq, getImports_eq, hnn, hdt]

theorem goModels_sameDocument (caseTable : Nat → Nat) (defs defs' : Definitions)
    (hwf : docWF defs) (h : sameDocument defs defs') :
    goModels caseTable defs' = goModels caseTable defs := by
  obtain ⟨mid, hfa, hperm⟩ := h
  have hkm : GoMap.keys mid = GoMap.keys defs := forall₂_keys defs mid hfa
  have hkp : (GoMap.keys defs).Perm (GoMap.keys defs') := by
    rw [← hkm]
    exact hperm.map Prod.fst
  have hwfm : GoMap.WF mid := by
    unfold GoMap.WF
    rw [hkm]
    exact hwf.1
  have hhas : ∀ k, GoMap.has defs' k = GoMap.has defs k :=
    fun k => GoMap.has_perm defs defs' hkp k
  unfold goModels
  rw [sortStrings_eq_of_perm (GoMap.keys defs') (GoMap.keys defs) hkp.symm]
  apply appendEach_congr
  intro k _
  have hsame : samePtrDefinition (GoMap.get defs k) (GoMap.get defs' k) := by
    rw [GoMap.get_perm mid defs' hperm hwfm k]
    exact forall₂_get defs mid hfa k
  unfold toGoModel
  cases hd : GoMap.get defs k with
  | none =>
    cases hd' : GoMap.get defs' k with
    | none => rfl
    | some e =>
      rw [hd, hd'] at hsame
      exact False.elim hsame
  | some d =>
    cases hd' : GoMap.get defs' k with
    | none =>
      rw [hd, hd'] at hsame
      exact False.elim hsame
    | some e =>
      rw [hd, hd'] at hsame
      obtain ⟨hreq, _, hprops⟩ := hsame
      have hwfd : GoMap.WF d.Properties := hwf.2 k d (GoMap.get_some_mem defs k d hd)
      simp only []
      rw [← hreq, toGoModelFields_congr caseTable defs defs' hhas d.Required
        d.Properties e.Properties hprops hwfd]

theorem docNonNull_of_docResolvable (defs : Definitions) (h : docResolvable defs = true) :
    docNonNull defs = true := by
  unfold docNonNull
  rw [List.all_eq_true]
  intro kv hkv
  obtain ⟨d, hd, hp⟩ := docResolvable_mem h hkv
  rw [hd]
  simp only [propsNonNull]
  rw [List.all_eq_true]
  intro kp hkp
  have := propsResolvable_mem hp hkp
  cases hv : kp.2 with
  | none => rw [hv] at this; exact Bool.noConfusion this
  | some p => rfl

theorem petDoc_sameDocument : sameDocument petDoc petDocSwapped :=
  ⟨petDocSwapped,
   List.Forall₂.cons ⟨rfl, rfl, rfl, List.Perm.swap _ _ []⟩ List.Forall₂.nil,
   List.Perm.refl _⟩

/-! ## Lemmas: the template -/

theorem tplConcat_map {α : Type} (body : TplValue → Option GoString) (g : α → TplValue)
    (h : α → GoString) (hb : ∀ a, body (g a) = some (h a)) :
    ∀ l : List α, tplConcat body (l.map g) = some (l.map h).flatten
  | [] => rfl
  | a :: l => by
    simp [tplConcat, hb, tplConcat_map body g h hb l]

theorem tplExec_text (s : GoString) (trim : Bool) (rest : Tpl) (dot : TplValue) :
    tplExec (.text s trim rest) dot
      = (tplExec rest dot).map (fun t => (if trim then trimRightSpace s else s) ++ t) := rfl

theorem tplExec_field (name : String) (rest : Tpl) (dot : TplValue) (s : GoString)
    (h : tplField name dot = some (.str s)) :
    tplExec (.field name rest) dot = (tplExec rest dot).map (fun t => s ++ t) := by
  simp only [tplExec, h]

theorem tplExec_range (name : String) (body rest : Tpl) (dot : TplValue)
    (xs : List TplValue) (out : GoString) (h : tplField name dot = some (.list xs))
    (hc : tplConcat (fun x => tplExec body x) xs = some out) :
    tplExec (.range name body rest) dot = (tplExec rest dot).map (fun t => out ++ t) := by
  simp only [tplExec, h, hc]

theorem tplExec_done (dot : TplValue) : tplExec .done dot = some [] := rfl

/-! ## Lemmas: a name that does not decode, under the suffix rule -/

/-- C1: for a property of type string, boolean, number, or integer with format
int32 or int64, `toFieldType` returns the base type name (`time.Time` for a
string of format date-time, `string` for any other string, `bool`, `float64`,
`int32`, `int64`), prefixed with `*` exactly when the field is required. -/
theorem toFieldType_primitive (defs : Definitions) (ref format : GoString)
    (items : Option Property) (required : Bool) :
    toFieldType defs (some (.mk ref format (ascii "string") items)) required
        = some ((if required then ascii "*" else []) ++
            (if format = ascii "date-time" then ascii "time.Time" else ascii "string"))
    ∧ toFieldType defs (some (.mk ref format (ascii "boolean") items)) required
        = some ((if required then ascii "*" else []) ++ ascii "bool")
    ∧ toFieldType defs (some (.mk ref format (ascii "number") items)) required
        = some ((if required then ascii "*" else []) ++ ascii "float64")
    ∧ toFieldType defs (some (.mk ref (ascii "int32") (ascii "integer") items)) required
        = some ((if required then ascii "*" else []) ++ ascii "int32")
    ∧ toFieldType defs (some (.mk ref (ascii "int64") (ascii "integer") items)) required
        = some ((if required then ascii "*" else []) ++ ascii "int64") := by
  have e0 : ascii "" = [] := by decide
  have h1 : TypeBoolean ≠ TypeString := by decide
  have h2 : TypeNumber ≠ TypeString := by decide
  have h3 : TypeNumber ≠ TypeBoolean := by decide
  have h4 : TypeInteger ≠ TypeString := by decide
  have h5 : TypeInteger ≠ TypeBoolean := by decide
  have h6 : TypeInteger ≠ TypeNumber := by decide
  have h7 : FormatInt64 ≠ FormatInt32 := by decide
  have t1 : ascii "string" = TypeString := rfl
  have t2 : ascii "boolean" = TypeBoolean := rfl
  have t3 : ascii "number" = TypeNumber := rfl
  have t4 : ascii "integer" = TypeInteger := rfl
  have f1 : ascii "int32" = FormatInt32 := rfl
  have f2 : ascii "int64" = FormatInt64 := rfl
  have f3 : ascii "date-time" = FormatDateTime := rfl
  rw [t1, t2, t3, t4, f1, f2, f3]
  refine ⟨?_, ?_, ?_, ?_, ?_⟩
  · by_cases hf : format = FormatDateTime <;> cases items <;>
      simp [toFieldType, toFieldTypeAt, hf, e0, t1]
  · cases items <;> simp [toFieldType, toFieldTypeAt, h1, e0]
  · cases items <;> simp [toFieldType, toFieldTypeAt, h2, h3, e0]
  · cases items <;> simp [toFieldType, toFieldTypeAt, h4, h5, h6, e0, f1]
  · cases items <;> simp [toFieldType, toFieldTypeAt, h4, h5, h6, h7, e0, f2]

/-- C2: for a definition whose property pointers resolve, `toGoModelFields`
emits, for every property key `k`, exactly one field descriptor: its name is
`toGoPublicFieldName k`, its type `toFieldType` of the property with the
membership of `k` in the required list, its tag the text
`json:"k,omitempty"` in backquotes.  The Pet document gives one type `Pet`
with the fields `ID *int64` and `Name string`, in that order. -/
theorem toGoModelFields_one_field_per_key (caseTable : Nat → Nat) (defs : Definitions)
    (requiredFields : List GoString) (props : Properties)
    (hwf : GoMap.WF props) (hres : propsResolvable props = true) :
    (∃ out, toGoModelFields caseTable defs requiredFields props = some out ∧
      ∀ k prop, (k, prop) ∈ props →
        ∃ typ, toFieldType defs prop (decide (k ∈ requiredFields)) = some typ ∧
          out.filter (fun f => decide (f.swaggerFieldName = k)) =
            [{ Name := toGoPublicFieldName caseTable k, TypeName := typ,
               Tags := ascii "`json:\"" ++ k ++ ascii ",omitempty\"`",
               swaggerFieldName := k }])
    ∧ goModels caseTable petDoc = some
        [{ Name := ascii "Pet",
           Fields :=
            [{ Name := ascii "ID", TypeName := ascii "*int64",
               Tags := ascii "`json:\"id,omitempty\"`", swaggerFieldName := ascii "id" },
             { Name := ascii "Name", TypeName := ascii "string",
               Tags := ascii "`json:\"name,omitempty\"`",
               swaggerFieldName := ascii "name" }] }] := by
  refine ⟨?_, rfl⟩
  obtain ⟨out, hout⟩ := toGoModelFields_some caseTable defs requiredFields props hres
  refine ⟨out, hout, ?_⟩
  intro k prop hmem
  have hget : GoMap.get props k = prop := GoMap.get_of_mem props hwf k prop hmem
  have hfa := appendEach_forall₂ _ _ _ hout
  have hk : k ∈ sortStrings (GoMap.keys props) :=
    (sortStrings_mem _ k).mpr (List.mem_map_of_mem Prod.fst hmem)
  have hr : ptrResolvable prop = true := propsResolvable_mem hres hmem
  obtain ⟨typ, htyp⟩ := Option.isSome_iff_exists.mp
    ((toFieldType_isSome defs prop (decide (k ∈ requiredFields))).trans hr)
  refine ⟨typ, htyp, ?_⟩
  refine forall₂_filter_key _ goModelField.swaggerFieldName ?_ k _ ?_ _ _ hfa
    (sortStrings_nodup _ hwf) hk
  · intro k' x hx
    obtain ⟨_, _, hf⟩ := toGoModelField_spec _ _ _ _ _ _ hx
    rw [hf]
  · intro x hx
    obtain ⟨typ', htyp', hf⟩ := toGoModelField_spec _ _ _ _ _ _ hx
    rw [hget, htyp] at htyp'
    cases htyp'
    exact hf

/-- C3: on a document without nil pointers `goModels` returns one type
descriptor per definition, in strictly ascending byte order of the definition
names, and each descriptor has one field per property of its definition, in
strictly ascending byte order of the property names (`swaggerFieldName`). -/
theorem goModels_sorted (caseTable : Nat → Nat) (defs : Definitions)
    (hwf : docWF defs) (hres : docResolvable defs = true) :
    ∃ out names, goModels caseTable defs = some out ∧
      names.Perm (GoMap.keys defs) ∧
      names.Pairwise (fun a b => strLess a b = true) ∧
      List.Forall₂ (fun n model => ∃ d, (n, some d) ∈ defs ∧
          model.Name = toGoModelName n ∧
          (model.Fields.map goModelField.swaggerFieldName).Perm (GoMap.keys d.Properties) ∧
          (model.Fields.map goModelField.swaggerFieldName).Pairwise
            (fun a b => strLess a b = true)) names out := by
  obtain ⟨out, hout⟩ := goModels_some caseTable defs hres
  refine ⟨out, sortStrings (GoMap.keys defs), hout, sortStrings_perm _,
    sortStrings_strict _ hwf.1, ?_⟩
  refine (appendEach_forall₂ _ _ _ hout).imp ?_
  intro n model hm
  obtain ⟨d, hd, hname, hfields⟩ := toGoModel_spec _ _ _ _ hm
  have hmem := GoMap.get_some_mem defs n d hd
  have hkeys := toGoModelFields_keys _ _ _ _ _ hfields
  refine ⟨d, hmem, hname, ?_, ?_⟩
  · rw [hkeys]; exact sortStrings_perm _
  · rw [hkeys]; exact sortStrings_strict _ (hwf.2 n d hmem)

/-- C4: the mapper is not total.  On a document with an array property without
`items`, `goModels` dereferences the nil `Items` pointer; on a document with
a null property, and on one with a null definition, both `goModels` and
`getImports` dereference a nil pointer (`getImports` does not look behind an
array and returns on the first document). -/
theorem goModels_getImports_nil_dereference (caseTable : Nat → Nat) :
    goModels caseTable arrayNoItemsDoc = none
    ∧ getImports arrayNoItemsDoc = some []
    ∧ goModels caseTable nullPropertyDoc = none
    ∧ getImports nullPropertyDoc = none
    ∧ goModels caseTable nullDefinitionDoc = none
    ∧ getImports nullDefinitionDoc = none :=
  ⟨rfl, rfl, rfl, rfl, rfl, rfl⟩

/-- C5: a property that reaches the reference resolution and whose reference,
with the first `#/definitions/` removed, is no key of the definitions,
resolves to `*unknown`, required or not. -/
theorem toFieldType_unknown_ref (defs : Definitions) (ref format typ : GoString)
    (items : Option Property) (required : Bool)
    (hs : typ ≠ ascii "string") (hb : typ ≠ ascii "boolean") (hn : typ ≠ ascii "number")
    (ha : typ ≠ ascii "array")
    (hi : ¬ (typ = ascii "integer" ∧ (format = ascii "int32" ∨ format = ascii "int64")))
    (hk : stringsReplace ref (ascii "#/definitions/") (ascii "") 1 ∉ GoMap.keys defs) :
    toFieldType defs (some (.mk ref format typ items)) required = some (ascii "*unknown") := by
  rw [toFieldType_byRef defs ref format typ items required hs hb hn ha hi]
  have hhas : GoMap.has defs (stringsReplace ref (ascii "#/definitions/") (ascii "") 1)
      = false := by
    cases h : GoMap.has defs (stringsReplace ref (ascii "#/definitions/") (ascii "") 1) with
    | false => rfl
    | true => exact absurd ((GoMap.has_eq_true_iff _ _).mp h) hk
  have hu : toGoModelName (ascii "unknown") = ascii "unknown" := by decide
  simp only [findDefName, hhas, hu]
  rfl

theorem toFieldType_unknown_ref_witness :
    toFieldType petDoc (some (.mk (ascii "#/definitions/Dog") [] [] none)) true
      = some (ascii "*unknown") :=
  toFieldType_unknown_ref petDoc (ascii "#/definitions/Dog") [] [] none true
    (by decide) (by decide) (by decide) (by decide) (by decide) (by decide)

/-- C7: an array property with an element property has the type `[]` followed
by the type of the element resolved as not required, whatever the required
flag of the field; an array of `items: \x7b"type":"string"\x7d` has the type
`[]string`. -/
theorem toFieldType_array_items (defs : Definitions) (ref format : GoString)
    (item : Property) (required : Bool) :
    toFieldType defs (some (.mk ref format (ascii "array") (some item))) required
      = (toFieldType defs (some item) false).map (fun t => ascii "[]" ++ t)
    ∧ toFieldType defs (some (.mk ref format (ascii "array") (some item))) true
      = toFieldType defs (some (.mk ref format (ascii "array") (some item))) false
    ∧ (ptrResolvable (some item) = true →
        ∃ t, toFieldType defs (some item) false = some t ∧
          toFieldType defs (some (.mk ref format (ascii "array") (some item))) required
            = some (ascii "[]" ++ t))
    ∧ toFieldType defs
        (some (.mk ref format (ascii "array") (some (.mk [] [] (ascii "string") none))))
        required = some (ascii "[]string") := by
  have ta : ascii "array" = TypeArray := rfl
  rw [ta]
  refine ⟨toFieldType_array _ _ _ _ _, ?_, ?_, ?_⟩
  · rw [toFieldType_array, toFieldType_array]
  · intro hr
    obtain ⟨t, ht⟩ := Option.isSome_iff_exists.mp
      ((toFieldType_isSome defs (some item) false).trans hr)
    exact ⟨t, ht, by rw [toFieldType_array, ht]; rfl⟩
  · rw [toFieldType_array]
    rfl

theorem toFieldType_array_items_witness :
    ptrResolvable (some (.mk [] (ascii "date-time") (ascii "string") none)) = true ∧
    ∃ t, toFieldType petDoc (some (.mk [] (ascii "date-time") (ascii "string") none)) false
          = some t ∧
        toFieldType petDoc (some (.mk [] [] (ascii "array")
            (some (.mk [] (ascii "date-time") (ascii "string") none)))) true
          = some (ascii "[]" ++ t) :=
  ⟨by decide,
   (toFieldType_array_items petDoc [] [] (.mk [] (ascii "date-time") (ascii "string") none)
      true).2.2.1 (by decide)⟩

/-- C10: `toGoModelName` returns the name without its `.` bytes, the other
bytes in their order (`foo.Bar` gives `fooBar`), and that is the name of the
type `goModels` generates for the definition. -/
theorem toGoModelName_removes_dots (caseTable : Nat → Nat) (defs : Definitions)
    (name : GoString) (hres : docResolvable defs = true) :
    ascii "." = [46]
    ∧ toGoModelName name = name.filter (fun b => b ≠ 46)
    ∧ 46 ∉ toGoModelName name
    ∧ toGoModelName (ascii "foo.Bar") = ascii "fooBar"
    ∧ ∃ out, goModels caseTable defs = some out ∧
        out.map goModel.Name = (sortStrings (GoMap.keys defs)).map toGoModelName := by
  refine ⟨by decide, toGoModelName_eq_filter name, ?_, by decide, ?_⟩
  · rw [toGoModelName_eq_filter]
    simp
  · obtain ⟨out, hout⟩ := goModels_some caseTable defs hres
    refine ⟨out, hout, ?_⟩
    have hfa := appendEach_forall₂ _ _ _ hout
    clear hout
    generalize sortStrings (GoMap.keys defs) = keys at hfa
    induction hfa with
    | nil => rfl
    | cons h _ ih =>
      obtain ⟨_, _, hname, _⟩ := toGoModel_spec _ _ _ _ h
      simp [hname, ih]

theorem toGoModelFields_one_field_per_key_witness :
    GoMap.WF petProps ∧ propsResolvable petProps = true ∧
    ∃ out, toGoModelFields latin1CaseTable petDoc [ascii "id"] petProps = some out ∧
      ∀ k prop, (k, prop) ∈ petProps →
        ∃ typ, toFieldType petDoc prop (decide (k ∈ [ascii "id"])) = some typ ∧
          out.filter (fun f => decide (f.swaggerFieldName = k)) =
            [{ Name := toGoPublicFieldName latin1CaseTable k, TypeName := typ,
               Tags := ascii "`json:\"" ++ k ++ ascii ",omitempty\"`",
               swaggerFieldName := k }] :=
  ⟨by decide, by decide,
   (toGoModelFields_one_field_per_key latin1CaseTable petDoc [ascii "id"] petProps
      (by decide) (by decide)).1⟩

theorem goModels_sorted_witness :
    docWF petDoc ∧ docResolvable petDoc = true ∧
    ∃ out names, goModels latin1CaseTable petDoc = some out ∧
      names.Perm (GoMap.keys petDoc) ∧
      names.Pairwise (fun a b => strLess a b = true) ∧
      List.Forall₂ (fun n model => ∃ d, (n, some d) ∈ petDoc ∧
          model.Name = toGoModelName n ∧
          (model.Fields.map goModelField.swaggerFieldName).Perm (GoMap.keys d.Properties) ∧
          (model.Fields.map goModelField.swaggerFieldName).Pairwise
            (fun a b => strLess a b = true)) names out :=
  ⟨petDoc_wf, by decide, goModels_sorted latin1CaseTable petDoc petDoc_wf (by decide)⟩

theorem toGoModelName_removes_dots_witness :
    docResolvable petDoc = true ∧
    toGoModelName (ascii "a.b.c") = (ascii "a.b.c").filter (fun b => b ≠ 46) ∧
    ∃ out, goModels latin1CaseTable petDoc = some out ∧
      out.map goModel.Name = (sortStrings (GoMap.keys petDoc)).map toGoModelName :=
  ⟨by decide,
   (toGoModelName_removes_dots latin1CaseTable petDoc (ascii "a.b.c") (by decide)).2.1,
   (toGoModelName_removes_dots latin1CaseTable petDoc (ascii "a.b.c") (by decide)).2.2.2.2⟩

/-- C8, as the spec states it, fails: after the suffix rule the default
capitalization is applied as well, so `userId` gives `UserID`, not `userID`,
and `imageUrl` gives `ImageURL`, not `imageURL`. -/
theorem toGoPublicFieldName_suffix_only_counterexample :
    ¬ (∀ (caseTable : Nat → Nat) (name : GoString), name ≠ ascii "id" →
        hasSuffix name (ascii "Id") = true →
        toGoPublicFieldName caseTable name = name.take (name.length - 2) ++ ascii "ID")
    ∧ ¬ (∀ (caseTable : Nat → Nat) (name : GoString),
        hasSuffix name (ascii "Url") = true →
        toGoPublicFieldName caseTable name = name.take (name.length - 3) ++ ascii "URL")
    ∧ toGoPublicFieldName latin1CaseTable (ascii "userId") = ascii "UserID"
    ∧ toGoPublicFieldName latin1CaseTable (ascii "imageUrl") = ascii "ImageURL" := by
  refine ⟨?_, ?_, by decide, by decide⟩
  · intro h
    have := h latin1CaseTable (ascii "userId") (by decide) (by decide)
    revert this
    decide
  · intro h
    have := h latin1CaseTable (ascii "imageUrl") (by decide)
    revert this
    decide

/-- C8, amended: for a field name that ends in `Id`, `toGoPublicFieldName`
returns the name with its last 2 bytes replaced by `ID` and, in addition, with
the default capitalization applied to that (`upperFirst`); likewise `Url`
becomes `URL`.  When a validly encoded first character stands before the
suffix, that is the name with the suffix replaced and the first character in
upper case, no other byte changed.  The names `Id` and `Url` themselves give
`ID` and `URL`. -/
theorem toGoPublicFieldName_suffix_then_upper (caseTable : Nat → Nat) (name : GoString)
    (c : Nat) (stem : GoString) :
    (hasSuffix name (ascii "Id") = true →
      toGoPublicFieldName caseTable name
        = upperFirst caseTable (name.take (name.length - 2) ++ ascii "ID"))
    ∧ (hasSuffix name (ascii "Url") = true →
      toGoPublicFieldName caseTable name
        = upperFirst caseTable (name.take (name.length - 3) ++ ascii "URL"))
    ∧ (validRune c →
      toGoPublicFieldName caseTable (runeToString c ++ stem ++ ascii "Id")
        = runeToString (unicodeToUpper caseTable c) ++ stem ++ ascii "ID"
      ∧ toGoPublicFieldName caseTable (runeToString c ++ stem ++ ascii "Url")
        = runeToString (unicodeToUpper caseTable c) ++ stem ++ ascii "URL")
    ∧ toGoPublicFieldName caseTable (ascii "Id") = ascii "ID"
    ∧ toGoPublicFieldName caseTable (ascii "Url") = ascii "URL" := by
  refine ⟨toGoPublicFieldName_Id caseTable name, toGoPublicFieldName_Url caseTable name,
    ?_, rfl, rfl⟩
  intro hv
  constructor
  · rw [toGoPublicFieldName_Id caseTable _ (hasSuffix_append _ _)]
    have hl : (ascii "Id").length = 2 := by decide
    have : (runeToString c ++ stem ++ ascii "Id").take
        ((runeToString c ++ stem ++ ascii "Id").length - 2) = runeToString c ++ stem := by
      rw [List.length_append, hl, Nat.add_sub_cancel, List.take_left']
      rfl
    rw [this, List.append_assoc, upperFirst_runeToString caseTable c hv, List.append_assoc]
  · rw [toGoPublicFieldName_Url caseTable _ (hasSuffix_append _ _)]
    have hl : (ascii "Url").length = 3 := by decide
    have : (runeToString c ++ stem ++ ascii "Url").take
        ((runeToString c ++ stem ++ ascii "Url").length - 3) = runeToString c ++ stem := by
      rw [List.length_append, hl, Nat.add_sub_cancel, List.take_left']
      rfl
    rw [this, List.append_assoc, upperFirst_runeToString caseTable c hv, List.append_assoc]

theorem toGoPublicFieldName_suffix_then_upper_witness :
    (hasSuffix (ascii "userId") (ascii "Id") = true ∧
      toGoPublicFieldName latin1CaseTable (ascii "userId")
        = upperFirst latin1CaseTable
            ((ascii "userId").take ((ascii "userId").length - 2) ++ ascii "ID"))
    ∧ (hasSuffix (ascii "imageUrl") (ascii "Url") = true ∧
      toGoPublicFieldName latin1CaseTable (ascii "imageUrl")
        = upperFirst latin1CaseTable
            ((ascii "imageUrl").take ((ascii "imageUrl").length - 3) ++ ascii "URL"))
    ∧ (validRune 0xE9 ∧
      toGoPublicFieldName latin1CaseTable (runeToString 0xE9 ++ ascii "tage" ++ ascii "Id")
        = runeToString 0xC9 ++ ascii "tage" ++ ascii "ID") :=
  ⟨⟨by decide,
    (toGoPublicFieldName_suffix_then_upper latin1CaseTable (ascii "userId") 0 []).1
      (by decide)⟩,
   ⟨by decide,
    (toGoPublicFieldName_suffix_then_upper latin1CaseTable (ascii "imageUrl") 0 []).2.1
      (by decide)⟩,
   ⟨by decide,
    ((toGoPublicFieldName_suffix_then_upper latin1CaseTable [] 0xE9 (ascii "tage")).2.2.1
      (by decide)).1⟩⟩

/-- C9: a field name that starts with a validly encoded character, is not
`id` and ends in neither `Id` nor `Url`, is returned with that first
character (the decoded rune, not the first byte) in upper case and the rest
unchanged: a first character `a` .. `z` becomes `A` .. `Z` (32 code points
down), any other ASCII character stays, and a character above U+007F becomes
the one the upper-case table of the library gives, encoded again.  The name
`id` gives `ID`; `name` gives `Name`. -/
theorem toGoPublicFieldName_default (caseTable : Nat → Nat) (c : Nat) (rest : GoString)
    (hv : validRune c)
    (hid : runeToString c ++ rest ≠ ascii "id")
    (hId : hasSuffix (runeToString c ++ rest) (ascii "Id") = false)
    (hUrl : hasSuffix (runeToString c ++ rest) (ascii "Url") = false) :
    toGoPublicFieldName caseTable (runeToString c ++ rest)
      = runeToString (unicodeToUpper caseTable c) ++ rest
    ∧ (0x61 ≤ c ∧ c ≤ 0x7A →
        toGoPublicFieldName caseTable (c :: rest) = (c - 0x20) :: rest)
    ∧ (c ≤ 0x7F → ¬ (0x61 ≤ c ∧ c ≤ 0x7A) →
        toGoPublicFieldName caseTable (c :: rest) = c :: rest)
    ∧ (0x7F < c →
        toGoPublicFieldName caseTable (runeToString c ++ rest)
          = runeToString (caseTable c) ++ rest)
    ∧ toGoPublicFieldName caseTable (ascii "id") = ascii "ID"
    ∧ toGoPublicFieldName caseTable (ascii "name") = ascii "Name"
    ∧ toGoPublicFieldName caseTable (ascii "petName") = ascii "PetName" := by
  have h1 : toGoPublicFieldName caseTable (runeToString c ++ rest)
      = runeToString (unicodeToUpper caseTable c) ++ rest := by
    rw [toGoPublicFieldName_other caseTable _ hid hId hUrl,
      upperFirst_runeToString caseTable c hv]
  refine ⟨h1, ?_, ?_, ?_, rfl, rfl, rfl⟩
  · intro hc
    have hr : runeToString c = [c] := by
      unfold runeToString
      rw [if_pos (by omega)]
    have hu : unicodeToUpper caseTable c = c - 0x20 := by
      unfold unicodeToUpper
      rw [if_pos (by omega), if_pos hc]
    have hr2 : runeToString (c - 0x20) = [c - 0x20] := by
      unfold runeToString
      rw [if_pos (by omega)]
    rw [hr, hu, hr2] at h1
    exact h1
  · intro hc hn
    have hr : runeToString c = [c] := by
      unfold runeToString
      rw [if_pos hc]
    have hu : unicodeToUpper caseTable c = c := by
      unfold unicodeToUpper
      rw [if_pos hc, if_neg hn]
    rw [hu, hr] at h1
    exact h1
  · intro hc
    have hu : unicodeToUpper caseTable c = caseTable c := by
      unfold unicodeToUpper
      rw [if_neg (by omega)]
    rw [hu] at h1
    exact h1

theorem toGoPublicFieldName_default_witness :
    (validRune 0x6E ∧
      toGoPublicFieldName latin1CaseTable (ascii "name") = ascii "Name")
    ∧ (validRune 0x5F ∧
      toGoPublicFieldName latin1CaseTable (ascii "_links") = ascii "_links")
    ∧ (validRune 0xE9 ∧
      toGoPublicFieldName latin1CaseTable ([0xC3, 0xA9] ++ ascii "cole")
        = [0xC3, 0x89] ++ ascii "cole")
    ∧ toGoPublicFieldName latin1CaseTable (ascii "id") = ascii "ID" :=
  ⟨⟨by decide,
    (toGoPublicFieldName_default latin1CaseTable 0x6E (ascii "ame")
      (by decide) (by decide) (by decide) (by decide)).2.1 (by decide)⟩,
   ⟨by decide,
    (toGoPublicFieldName_default latin1CaseTable 0x5F (ascii "links")
      (by decide) (by decide) (by decide) (by decide)).2.2.1 (by decide) (by decide)⟩,
   ⟨by decide,
    (toGoPublicFieldName_default latin1CaseTable 0xE9 (ascii "cole")
      (by decide) (by decide) (by decide) (by decide)).1⟩,
   (toGoPublicFieldName_default latin1CaseTable 0xE9 (ascii "cole")
      (by decide) (by decide) (by decide) (by decide)).2.2.2.2.1⟩

/-- C11: on a document without null definition and null property `getImports`
returns a list without duplicates that is empty or exactly `["time"]`: it is
`["time"]`, one entry, as soon as some definition has a property that is a
string of format date-time (also when two distinct definitions have one
each), and empty when no definition has such a property. -/
theorem getImports_time_once (defs : Definitions) (hnn : docNonNull defs = true) :
    ∃ out, getImports defs = some out ∧ out.Nodup ∧ (out = [] ∨ out = [ascii "time"])
      ∧ ((∃ k d kp p, (k, some d) ∈ defs ∧ (kp, some p) ∈ d.Properties ∧
            p.Typ = ascii "string" ∧ p.Format = ascii "date-time") → out = [ascii "time"])
      ∧ (∀ k₁ d₁ kp₁ p₁ k₂ d₂ kp₂ p₂, k₁ ≠ k₂ →
            (k₁, some d₁) ∈ defs → (kp₁, some p₁) ∈ d₁.Properties →
            p₁.Typ = ascii "string" → p₁.Format = ascii "date-time" →
            (k₂, some d₂) ∈ defs → (kp₂, some p₂) ∈ d₂.Properties →
            p₂.Typ = ascii "string" → p₂.Format = ascii "date-time" →
            out.length = 1 ∧ out = [ascii "time"])
      ∧ ((¬ ∃ k d kp p, (k, some d) ∈ defs ∧ (kp, some p) ∈ d.Properties ∧
            p.Typ = ascii "string" ∧ p.Format = ascii "date-time") → out = []) := by
  have heq := getImports_eq defs
  rw [if_pos hnn] at heq
  have hiff := docHasDateTime_iff defs
  by_cases hdt : docHasDateTime defs = true
  · rw [if_pos hdt] at heq
    refine ⟨[ascii "time"], heq, by simp, Or.inr rfl, fun _ => rfl, ?_, ?_⟩
    · intros
      exact ⟨rfl, rfl⟩
    · intro hno
      exact absurd (hiff.mp hdt) hno
  · rw [if_neg hdt] at heq
    refine ⟨[], heq, List.nodup_nil, Or.inl rfl, ?_, ?_, fun _ => rfl⟩
    · intro hex
      exact absurd (hiff.mpr hex) hdt
    · intro k₁ d₁ kp₁ p₁ _ _ _ _ _ h1 h2 h3 h4 _ _ _ _
      exact absurd (hiff.mpr ⟨k₁, d₁, kp₁, p₁, h1, h2, h3, h4⟩) hdt

theorem getImports_time_once_witness :
    docNonNull twoDateTimeDoc = true ∧
    ∃ out, getImports twoDateTimeDoc = some out ∧ out.Nodup ∧
      (out = [] ∨ out = [ascii "time"])
      ∧ ((∃ k d kp p, (k, some d) ∈ twoDateTimeDoc ∧ (kp, some p) ∈ d.Properties ∧
            p.Typ = ascii "string" ∧ p.Format = ascii "date-time") → out = [ascii "time"])
      ∧ (∀ k₁ d₁ kp₁ p₁ k₂ d₂ kp₂ p₂, k₁ ≠ k₂ →
            (k₁, some d₁) ∈ twoDateTimeDoc → (kp₁, some p₁) ∈ d₁.Properties →
            p₁.Typ = ascii "string" → p₁.Format = ascii "date-time" →
            (k₂, some d₂) ∈ twoDateTimeDoc → (kp₂, some p₂) ∈ d₂.Properties →
            p₂.Typ = ascii "string" → p₂.Format = ascii "date-time" →
            out.length = 1 ∧ out = [ascii "time"])
      ∧ ((¬ ∃ k d kp p, (k, some d) ∈ twoDateTimeDoc ∧ (kp, some p) ∈ d.Properties ∧
            p.Typ = ascii "string" ∧ p.Format = ascii "date-time") → out = []) :=
  ⟨by decide, getImports_time_once twoDateTimeDoc (by decide)⟩

/-- C12: `getImports` looks at the properties of the definitions only, not at
the element behind an array.  On the document with an array of date-time
strings the field has the type `[]time.Time`, and the import list is empty:
`time` is missing. -/
theorem getImports_misses_array_items (caseTable : Nat → Nat) :
    goModels caseTable arrayDateTimeDoc = some
        [{ Name := ascii "A",
           Fields :=
            [{ Name := ascii "Ts", TypeName := ascii "[]time.Time",
               Tags := ascii "`json:\"ts,omitempty\"`", swaggerFieldName := ascii "ts" }] }]
    ∧ getImports arrayDateTimeDoc = some []
    ∧ getImports twoDateTimeDoc = some [ascii "time"] :=
  ⟨rfl, rfl, rfl⟩

/-- C13: a sanitized name that is not itself a special-case input (not `id`,
ending in neither `Id` nor `Url`) is a fixed point of `toGoPublicFieldName`;
`ID` stays `ID`.  The upper-case table of the library enters through two of
its properties: upper-casing twice is upper-casing once, and U+FFFD has no
upper case. -/
theorem toGoPublicFieldName_idempotent (caseTable : Nat → Nat) (n : GoString)
    (hidem : ∀ r, unicodeToUpper caseTable (unicodeToUpper caseTable r)
      = unicodeToUpper caseTable r)
    (hfffd : caseTable 0xFFFD = 0xFFFD)
    (hid : toGoPublicFieldName caseTable n ≠ ascii "id")
    (hId : hasSuffix (toGoPublicFieldName caseTable n) (ascii "Id") = false)
    (hUrl : hasSuffix (toGoPublicFieldName caseTable n) (ascii "Url") = false) :
    toGoPublicFieldName caseTable (toGoPublicFieldName caseTable n)
      = toGoPublicFieldName caseTable n
    ∧ toGoPublicFieldName caseTable (ascii "ID") = ascii "ID" := by
  refine ⟨?_, rfl⟩
  rw [toGoPublicFieldName_other caseTable _ hid hId hUrl]
  rcases toGoPublicFieldName_cases caseTable n with h | ⟨x, h⟩
  · rw [h]
    rfl
  · rw [h]
    exact upperFirst_idem caseTable hidem hfffd x

theorem toGoPublicFieldName_idempotent_witness :
    latin1CaseTable 0xFFFD = 0xFFFD ∧
    toGoPublicFieldName latin1CaseTable (ascii "userId") = ascii "UserID" ∧
    toGoPublicFieldName latin1CaseTable
        (toGoPublicFieldName latin1CaseTable (ascii "userId"))
      = toGoPublicFieldName latin1CaseTable (ascii "userId") :=
  ⟨by decide, by decide,
   (toGoPublicFieldName_idempotent latin1CaseTable (ascii "userId") latin1CaseTable_idem
      (by decide) (by decide) (by decide) (by decide)).1⟩

/-- C15, as stated, fails in its last part: an `integer` property without
format whose reference designates the definition `int.32` has the type
`*int32`, the very text `toFieldType` gives a required `integer` of format
`int32`. -/
theorem toFieldType_integer_other_format_counterexample :
    toFieldType int32NameDoc
        (some (.mk (ascii "#/definitions/int.32") [] (ascii "integer") none)) true
      = some (ascii "*int32")
    ∧ toFieldType int32NameDoc
        (some (.mk (ascii "#/definitions/int.32") [] (ascii "integer") none)) false
      = some (ascii "*int32")
    ∧ toFieldType int32NameDoc (some (.mk [] (ascii "int32") (ascii "integer") none)) true
      = some (ascii "*int32")
    ∧ ¬ (∀ (defs : Definitions) (ref format : GoString) (items : Option Property)
          (required : Bool), format ≠ ascii "int32" → format ≠ ascii "int64" →
          toFieldType defs (some (.mk ref format (ascii "integer") items)) required
            ≠ some (ascii "*int32")) := by
  refine ⟨by decide, by decide, by decide, ?_⟩
  intro h
  exact h int32NameDoc (ascii "#/definitions/int.32") [] none true (by decide) (by decide)
    (by decide)

/-- C15, amended: an `integer` property whose format is neither `int32` nor
`int64` reaches the reference resolution: required or not, its type is `*`
followed by the name of the definition its reference designates without the
`.` bytes of that name, and `*unknown` when the reference designates no
definition.  It is never the bare `int32` or `int64`, and it is `*int32` or
`*int64` exactly when the designated definition has that name once its `.`
bytes are removed.  The reference `#/definitions/Pet` in the Pet document
gives `*Pet`. -/
theorem toFieldType_integer_other_format (defs : Definitions) (ref n format : GoString)
    (items : Option Property) (required : Bool)
    (h32 : format ≠ ascii "int32") (h64 : format ≠ ascii "int64") :
    (stringsReplace ref (ascii "#/definitions/") (ascii "") 1 ∈ GoMap.keys defs →
      toFieldType defs (some (.mk ref format (ascii "integer") items)) required
        = some (ascii "*" ++
            (stringsReplace ref (ascii "#/definitions/") (ascii "") 1).filter
              (fun b => b ≠ 46)))
    ∧ (stringsReplace ref (ascii "#/definitions/") (ascii "") 1 ∉ GoMap.keys defs →
      toFieldType defs (some (.mk ref format (ascii "integer") items)) required
        = some (ascii "*unknown"))
    ∧ (n ∈ GoMap.keys defs →
      toFieldType defs
          (some (.mk (ascii "#/definitions/" ++ n) format (ascii "integer") items)) required
        = some (ascii "*" ++ n.filter (fun b => b ≠ 46)))
    ∧ toFieldType defs (some (.mk ref format (ascii "integer") items)) required
        ≠ some (ascii "int32")
    ∧ toFieldType defs (some (.mk ref format (ascii "integer") items)) required
        ≠ some (ascii "int64")
    ∧ (toFieldType defs (some (.mk ref format (ascii "integer") items)) required
          = some (ascii "*int32") ↔
        stringsReplace ref (ascii "#/definitions/") (ascii "") 1 ∈ GoMap.keys defs ∧
        (stringsReplace ref (ascii "#/definitions/") (ascii "") 1).filter
          (fun b => b ≠ 46) = ascii "int32")
    ∧ (toFieldType defs (some (.mk ref format (ascii "integer") items)) required
          = some (ascii "*int64") ↔
        stringsReplace ref (ascii "#/definitions/") (ascii "") 1 ∈ GoMap.keys defs ∧
        (stringsReplace ref (ascii "#/definitions/") (ascii "") 1).filter
          (fun b => b ≠ 46) = ascii "int64")
    ∧ toFieldType petDoc
          (some (.mk (ascii "#/definitions/Pet") format (ascii "integer") items)) required
        = some (ascii "*Pet")
    ∧ toFieldType dottedNamesDoc
          (some (.mk (ascii "#/definitions/a.b") format (ascii "integer") items)) required
        = some (ascii "*ab")
    ∧ toFieldType dottedNamesDoc
          (some (.mk (ascii "#/definitions/a.b") [] (ascii "integer") none)) true
        = some (ascii "*ab")
    ∧ toFieldType dottedNamesDoc
          (some (.mk (ascii "#/definitions/a.b") (ascii "int16") (ascii "integer") none)) false
        = some (ascii "*ab") := by
  have hs : ascii "integer" ≠ ascii "string" := by decide
  have hb : ascii "integer" ≠ ascii "boolean" := by decide
  have hn : ascii "integer" ≠ ascii "number" := by decide
  have ha : ascii "integer" ≠ ascii "array" := by decide
  have hi : ¬ (ascii "integer" = ascii "integer" ∧
      (format = ascii "int32" ∨ format = ascii "int64")) := by
    rintro ⟨_, h | h⟩
    · exact h32 h
    · exact h64 h
  have hres : ∀ r : GoString,
      toFieldType defs (some (.mk r format (ascii "integer") items)) required
        = some (ascii "*" ++ toGoModelName (findDefName defs r)) :=
    fun r => toFieldType_byRef defs r format (ascii "integer") items required hs hb hn ha hi
  have hunk : toGoModelName (ascii "unknown") = ascii "unknown" := by decide
  have hstar : ascii "*" = [42] := by decide
  -- the two cases of `findDefName`
  have hkey : stringsReplace ref (ascii "#/definitions/") (ascii "") 1 ∈ GoMap.keys defs →
      toFieldType defs (some (.mk ref format (ascii "integer") items)) required
        = some (ascii "*" ++
            (stringsReplace ref (ascii "#/definitions/") (ascii "") 1).filter
              (fun b => b ≠ 46)) := by
    intro hk
    have hhas := (GoMap.has_eq_true_iff defs _).mpr hk
    rw [hres]
    simp only [findDefName, hhas, if_true, toGoModelName_eq_filter]
  have hnokey : stringsReplace ref (ascii "#/definitions/") (ascii "") 1 ∉ GoMap.keys defs →
      toFieldType defs (some (.mk ref format (ascii "integer") items)) required
        = some (ascii "*unknown") := by
    intro hk
    have hhas : GoMap.has defs (stringsReplace ref (ascii "#/definitions/") (ascii "") 1)
        = false := by
      cases h : GoMap.has defs (stringsReplace ref (ascii "#/definitions/") (ascii "") 1) with
      | false => rfl
      | true => exact absurd ((GoMap.has_eq_true_iff _ _).mp h) hk
    rw [hres]
    simp only [findDefName, hhas, hunk]
    rfl
  -- a pointer type against a fixed name
  have hptr : ∀ t : String, ascii t ≠ ascii "unknown" →
      (toFieldType defs (some (.mk ref format (ascii "integer") items)) required
          = some (ascii "*" ++ ascii t) ↔
        stringsReplace ref (ascii "#/definitions/") (ascii "") 1 ∈ GoMap.keys defs ∧
        (stringsReplace ref (ascii "#/definitions/") (ascii "") 1).filter
          (fun b => b ≠ 46) = ascii t) := by
    intro t ht
    by_cases hk : stringsReplace ref (ascii "#/definitions/") (ascii "") 1 ∈ GoMap.keys defs
    · rw [hkey hk]
      constructor
      · intro h
        exact ⟨hk, List.append_cancel_left (Option.some.inj h)⟩
      · intro h
        rw [h.2]
    · rw [hnokey hk]
      constructor
      · intro h
        have e : ascii "*unknown" = ascii "*" ++ ascii "unknown" := by decide
        rw [e] at h
        exact absurd (List.append_cancel_left (Option.some.inj h)).symm ht
      · intro h
        exact absurd h.1 hk
  have e32 : ascii "*int32" = ascii "*" ++ ascii "int32" := by decide
  have e64 : ascii "*int64" = ascii "*" ++ ascii "int64" := by decide
  have hn_form : ∀ (ds : Definitions) (m : GoString), m ∈ GoMap.keys ds →
      toFieldType ds
          (some (.mk (ascii "#/definitions/" ++ m) format (ascii "integer") items)) required
        = some (ascii "*" ++ m.filter (fun b => b ≠ 46)) := by
    intro ds m hm
    have hhas : GoMap.has ds m = true := (GoMap.has_eq_true_iff _ _).mpr hm
    rw [toFieldType_byRef ds _ format (ascii "integer") items required hs hb hn ha hi]
    simp only [findDefName, stringsReplace_definitions_head, hhas, if_true,
      toGoModelName_eq_filter]
  refine ⟨hkey, hnokey, hn_form defs n, ?_, ?_, ?_, ?_, ?_, ?_, by decide, by decide⟩
  · rw [hres, hstar]
    intro h
    have e : ascii "int32" = [105, 110, 116, 51, 50] := by decide
    rw [e] at h
    simp at h
  · rw [hres, hstar]
    intro h
    have e : ascii "int64" = [105, 110, 116, 54, 52] := by decide
    rw [e] at h
    simp at h
  · rw [e32]
    exact hptr "int32" (by decide)
  · rw [e64]
    exact hptr "int64" (by decide)
  · have := hn_form petDoc (ascii "Pet") (by decide)
    exact this
  · have := hn_form dottedNamesDoc (ascii "a.b") (by decide)
    exact this

theorem toFieldType_integer_other_format_witness :
    (stringsReplace (ascii "#/definitions/Pet") (ascii "#/definitions/") (ascii "") 1
        ∈ GoMap.keys petDoc ∧
      toFieldType petDoc (some (.mk (ascii "#/definitions/Pet") [] (ascii "integer") none))
        true = some (ascii "*Pet"))
    ∧ (stringsReplace (ascii "#/definitions/Dog") (ascii "#/definitions/") (ascii "") 1
        ∉ GoMap.keys petDoc ∧
      toFieldType petDoc
        (some (.mk (ascii "#/definitions/Dog") (ascii "int16") (ascii "integer") none))
        false = some (ascii "*unknown"))
    ∧ (ascii "a.b" ∈ GoMap.keys dottedNamesDoc ∧
      toFieldType dottedNamesDoc
        (some (.mk (ascii "#/definitions/a.b") [] (ascii "integer") none)) false
        = some (ascii "*ab")) :=
  ⟨⟨by decide,
    (toFieldType_integer_other_format petDoc (ascii "#/definitions/Pet") [] [] none true
      (by decide) (by decide)).1 (by decide)⟩,
   ⟨by decide,
    (toFieldType_integer_other_format petDoc (ascii "#/definitions/Dog") [] (ascii "int16")
      none false (by decide) (by decide)).2.1 (by decide)⟩,
   ⟨by decide,
    (toFieldType_integer_other_format dottedNamesDoc [] (ascii "a.b") [] none false
      (by decide) (by decide)).2.2.1 (by decide)⟩⟩

/-- C17: the generated names are not injective.  The definition names `a.b`
and `ab` give two types of the same name `ab`; the property names `id` and
`Id` give two fields of the same name `ID`. -/
theorem generated_names_not_injective (caseTable : Nat → Nat) :
    (ascii "a.b" ≠ ascii "ab" ∧
      ∃ m₁ m₂, goModels caseTable dottedNamesDoc = some [m₁, m₂] ∧
        m₁.Name = ascii "ab" ∧ m₂.Name = ascii "ab")
    ∧ (ascii "id" ≠ ascii "Id" ∧
      ∃ f₁ f₂, toGoModelFields caseTable dottedNamesDoc [] idProps = some [f₁, f₂] ∧
        f₁.swaggerFieldName = ascii "Id" ∧ f₂.swaggerFieldName = ascii "id" ∧
        f₁.Name = ascii "ID" ∧ f₂.Name = ascii "ID") :=
  ⟨⟨by decide, _, _, rfl, rfl, rfl⟩, ⟨by decide, _, _, rfl, rfl, rfl, rfl, rfl⟩⟩

/-- C19: the default capitalization can produce a name the suffix rule
rewrites: `url` gives `Url`, and `Url` gives `URL`, so sanitizing twice
differs from sanitizing once. -/
theorem toGoPublicFieldName_twice_differs (caseTable : Nat → Nat) :
    toGoPublicFieldName caseTable (ascii "url") = ascii "Url"
    ∧ toGoPublicFieldName caseTable (ascii "Url") = ascii "URL"
    ∧ toGoPublicFieldName caseTable (toGoPublicFieldName caseTable (ascii "url"))
        ≠ toGoPublicFieldName caseTable (ascii "url") := by
  have h1 : toGoPublicFieldName caseTable (ascii "url") = ascii "Url" := rfl
  have h2 : toGoPublicFieldName caseTable (ascii "Url") = ascii "URL" := rfl
  refine ⟨h1, h2, ?_⟩
  rw [h1, h2]
  decide

/-- C14: the output of the mapper does not depend on the order in which the
maps are enumerated.  For two enumerations of one document (the definitions
in another order, the properties of each definition in another order)
`goModels` gives the same result and `getImports` gives the same result; on a
document without nil pointers both are a list of type descriptors and a list
of imports. -/
theorem mapper_independent_of_enumeration (caseTable : Nat → Nat)
    (defs defs' : Definitions) (hwf : docWF defs) (h : sameDocument defs defs') :
    goModels caseTable defs' = goModels caseTable defs
    ∧ getImports defs' = getImports defs
    ∧ (docResolvable defs = true →
        ∃ out imports,
          goModels caseTable defs = some out ∧ goModels caseTable defs' = some out ∧
          getImports defs = some imports ∧ getImports defs' = some imports) := by
  have hg := goModels_sameDocument caseTable defs defs' hwf h
  have hi := getImports_sameDocument defs defs' h
  refine ⟨hg, hi, ?_⟩
  intro hres
  obtain ⟨out, hout⟩ := goModels_some caseTable defs hres
  have hnn := docNonNull_of_docResolvable defs hres
  have himp := getImports_eq defs
  rw [if_pos hnn] at himp
  exact ⟨out, _, hout, hg.trans hout, himp, hi.trans himp⟩

theorem mapper_independent_of_enumeration_witness :
    docWF petDoc ∧ sameDocument petDoc petDocSwapped ∧ petDoc ≠ petDocSwapped
    ∧ goModels latin1CaseTable petDocSwapped = goModels latin1CaseTable petDoc
    ∧ getImports petDocSwapped = getImports petDoc
    ∧ (docResolvable petDoc = true →
        ∃ out imports,
          goModels latin1CaseTable petDoc = some out ∧
          goModels latin1CaseTable petDocSwapped = some out ∧
          getImports petDoc = some imports ∧ getImports petDocSwapped = some imports) :=
  ⟨petDoc_wf, petDoc_sameDocument,
   by
    intro e
    have h2 := congrArg
      (fun d => (d.head?.bind Prod.snd).map (fun x => GoMap.keys x.Properties)) e
    revert h2
    decide,
   mapper_independent_of_enumeration latin1CaseTable petDoc petDocSwapped petDoc_wf
     petDoc_sameDocument⟩

/-- C16: the text `execTemplate` writes, before formatting, is the banner line
and `package models`, then one line `import "<id>"` per import in the order
of the list, then for each type descriptor in the order of the list the block
`type <Name> struct \x7b`, one line of a tab and `<Name> <TypeName> <Tags>`
per field in the order of the fields, and the closing `\x7d`; the values
are written as they are. -/
theorem execTemplate_text (model : tmplModel) :
    execTemplate model = some
      (ascii "// Code generated by go-swagger-structs. DO NOT EDIT.\npackage models\n\n"
        ++ (model.Imports.map (fun i => ascii "\nimport \"" ++ i ++ ascii "\"")).flatten
        ++ ascii "\n\n"
        ++ (model.Models.map (fun m =>
              ascii "\ntype " ++ m.Name ++ ascii " struct \x7b"
                ++ (m.Fields.map (fun f =>
                      ascii "\n\t" ++ f.Name ++ ascii " " ++ f.TypeName ++ ascii " "
                        ++ f.Tags)).flatten
                ++ ascii "\n\x7d\n")).flatten
        ++ ascii "\n")
    ∧ execTemplate
        { Imports := [ascii "time"],
          Models :=
            [{ Name := ascii "Pet",
               Fields :=
                [{ Name := ascii "ID", TypeName := ascii "*int64",
                   Tags := ascii "`json:\"id,omitempty\"`",
                   swaggerFieldName := ascii "id" }] }] }
      = some (ascii ("// Code generated by go-swagger-structs. DO NOT EDIT.\n" ++
          "package models\n\n\nimport \"time\"\n\n\n" ++
          "type Pet struct \x7b\n\tID *int64 `json:\"id,omitempty\"`\n\x7d\n\n")) := by
  refine ⟨?_, by decide⟩
  have t1 : trimRightSpace (ascii "\"\n") = ascii "\"" := by decide
  have t2 : trimRightSpace (ascii " struct \x7b\n") = ascii " struct \x7b" := by decide
  have t3 : trimRightSpace (ascii "\n") = [] := by decide
  have hfield : ∀ f : goModelField, tplExec fieldTemplate f.toTpl
      = some (ascii "\n\t" ++ f.Name ++ ascii " " ++ f.TypeName ++ ascii " " ++ f.Tags) := by
    intro f
    rw [fieldTemplate, tplExec_text, tplExec_field "Name" _ f.toTpl f.Name rfl, tplExec_text,
      tplExec_field "TypeName" _ f.toTpl f.TypeName rfl, tplExec_text,
      tplExec_field "Tags" _ f.toTpl f.Tags rfl, tplExec_text, tplExec_done]
    simp [t3]
  have hmodel : ∀ m : goModel, tplExec modelTemplate m.toTpl
      = some (ascii "\ntype " ++ m.Name ++ ascii " struct \x7b"
          ++ (m.Fields.map (fun f =>
                ascii "\n\t" ++ f.Name ++ ascii " " ++ f.TypeName ++ ascii " "
                  ++ f.Tags)).flatten
          ++ ascii "\n\x7d\n") := by
    intro m
    have hfs := tplConcat_map (fun x => tplExec fieldTemplate x) goModelField.toTpl _
      hfield m.Fields
    rw [modelTemplate, tplExec_text, tplExec_field "Name" _ m.toTpl m.Name rfl, tplExec_text,
      tplExec_range "Fields" _ _ m.toTpl (m.Fields.map goModelField.toTpl) _ rfl hfs, tplExec_text, tplExec_done]
    simp [t2]
  have himport : ∀ i : GoString, tplExec importTemplate (.str i)
      = some (ascii "\nimport \"" ++ i ++ ascii "\"") := by
    intro i
    rw [importTemplate, tplExec_text, tplExec_field "" _ (.str i) i rfl, tplExec_text, tplExec_done]
    simp [t1]
  have hms := tplConcat_map (fun x => tplExec modelTemplate x) goModel.toTpl _
    hmodel model.Models
  have his := tplConcat_map (fun x => tplExec importTemplate x) TplValue.str _
    himport model.Imports
  rw [execTemplate, msgTemplate, tplExec_text,
    tplExec_range "Imports" _ _ model.toTpl (model.Imports.map TplValue.str) _ rfl his, tplExec_text,
    tplExec_range "Models" _ _ model.toTpl (model.Models.map goModel.toTpl) _ rfl hms, tplExec_text, tplExec_done]
  simp

end GoSwaggerStructs
